import Mathlib

/-!
Verification of structural properties of the P_USDExporter pipeline.

The definitions below are shallow embeddings of the Python sources:

* Clone_USD_StageAssembler.py — name-suffix parsing, prim-name
  sanitisation, hierarchy-tree building, sibling grouping, variant
  validation and the recursive stage-assembly loop.
* Clone_USD_PropertiesChaser.py — the path-reference remapper, the
  root-wrapper stripping sequence (modelled as an event trace), the
  skeleton-joint token remapper and the variant restructurer.

Strings are modelled over their character lists; character classes
(word characters, isalnum, isdigit) are modelled for ASCII text, which
is the alphabet of the node names handled by the tool.  External
effects (the USD stage, the file system) are modelled as explicit
state: prim specs become an association list from paths to prim data,
file lookup becomes an association list from names to the properties
read from that file, and prim existence for the joint-token heuristic
becomes a boolean-valued oracle.
-/

namespace PUSD

/-- Model of a regex word character for ASCII input. -/
def isWordChar (c : Char) : Bool :=
  c.isAlphanum || c = '_'

def toLowerList (l : List Char) : List Char :=
  l.map Char.toLower

/-- Case-insensitive anchored-at-end literal match: the model of
searching for a literal pattern anchored at the end of the string,
ignoring case, and returning the text before the match (the pattern is
given already lowercased). -/
def stripEndCI (l : List Char) (pat : List Char) : Option (List Char) :=
  if pat.length ≤ l.length ∧ toLowerList (l.drop (l.length - pat.length)) = pat then
    some (l.take (l.length - pat.length))
  else none

/-- Does the variant-suffix regex match starting at position i?  The
pattern is the literal VARIANT marker (with leading underscore,
case-insensitive) followed by a greedy run of word characters that must
reach the end of the string. -/
def variantMatchAt (l : List Char) (i : Nat) : Bool :=
  decide (toLowerList ((l.drop i).take 8) = "_variant".data) && ((l.drop i).drop 8).all isWordChar

/-- Leftmost match position of the variant-suffix regex, the model of
re.search over the whole string. -/
def findVariantIdx (l : List Char) : Option Nat :=
  (List.range (l.length + 1)).find? (variantMatchAt l)

/-- Embedding of parse_name_suffixes (Clone_USD_StageAssembler.py,
lines 86-119): strips, right to left, a payload marker, then a purpose
marker, then a variant marker with optional alphanumeric tag (empty tag
defaults to "1").  Returns (base, purpose, variant, is_payload). -/
def parse_name_suffixes (name : String) : String × Option String × Option String × Bool :=
  let l0 := name.data
  let s1 :=
    match stripEndCI l0 "_payload".data with
    | some b => (b, true)
    | none => (l0, false)
  let s2 :=
    match stripEndCI s1.1 "_render".data with
    | some b => (b, some "render")
    | none =>
      match stripEndCI s1.1 "_proxy".data with
      | some b => (b, some "proxy")
      | none =>
        match stripEndCI s1.1 "_guide".data with
        | some b => (b, some "guide")
        | none => (s1.1, (none : Option String))
  let s3 :=
    match findVariantIdx s2.1 with
    | some i =>
      let tag := s2.1.drop (i + 8)
      (s2.1.take i, some (if tag = [] then "1" else String.mk tag))
    | none => (s2.1, (none : Option String))
  (String.mk s3.1, s2.2, s3.2, s1.2)

/-- Embedding of the character map inside make_valid_prim_name: legal
characters (alphanumeric or underscore) are kept, anything else is
replaced by an underscore. -/
def sanitizeChar (c : Char) : Char :=
  if c.isAlphanum ∨ c = '_' then c else '_'

/-- Tail of make_valid_prim_name on the sanitised character list: an
empty result falls back to the literal prim, a leading digit causes an
underscore to be prepended. -/
def mkValidAux : List Char → String
  | [] => "prim"
  | c :: cs => if c.isDigit then String.mk ('_' :: c :: cs) else String.mk (c :: cs)

/-- Embedding of make_valid_prim_name (Clone_USD_StageAssembler.py,
lines 73-83). -/
def make_valid_prim_name (name : String) : String :=
  mkValidAux (name.data.map sanitizeChar)

/-- First-match association-list lookup (the model of Python dict
access on dicts built without key deletion). -/
def assocFind {κ β : Type} [DecidableEq κ] : List (κ × β) → κ → Option β
  | [], _ => none
  | e :: rest, k => if e.1 = k then some e.2 else assocFind rest k

/-- Append a value to the bucket of a key in a dict-of-lists, creating
the bucket at the end when the key is new (Python dict insertion
order). -/
def assocAppend {α : Type} : List (String × List α) → String → α → List (String × List α)
  | [], k, v => [(k, [v])]
  | e :: rest, k, v =>
    if e.1 = k then (e.1, e.2 ++ [v]) :: rest
    else e :: assocAppend rest k v

/-- A node of the hierarchy tree: parent name and accumulated children
names. -/
structure TreeNode where
  parent : Option String
  children : List String
deriving DecidableEq, Repr

/-- Append a child to the children list of the named node. -/
def addChildTo (tree : List (String × TreeNode)) (p c : String) : List (String × TreeNode) :=
  tree.map (fun e => if e.1 = p then (e.1, { e.2 with children := e.2.children ++ [c] }) else e)

/-- One linking step of build_hierarchy_tree: link the entry as a
child of its parent when the parent name has an entry of its own. -/
def buildStep (tree : List (String × TreeNode)) (e : String × Option String) :
    List (String × TreeNode) :=
  match e.2 with
  | some p => if (assocFind tree p).isSome then addChildTo tree p e.1 else tree
  | none => tree

/-- Embedding of build_hierarchy_tree (Clone_USD_StageAssembler.py,
lines 242-251): first create one node per entry, then link each entry
whose parent name exists in the table as a child of that parent. -/
def build_hierarchy_tree (h : List (String × Option String)) : List (String × TreeNode) :=
  h.foldl buildStep (h.map (fun e => (e.1, ({ parent := e.2, children := [] } : TreeNode))))

/-- Embedding of get_root_nodes (lines 254-256). -/
def get_root_nodes (tree : List (String × TreeNode)) : List String :=
  (tree.filter (fun e => e.2.parent = none)).map Prod.fst

/-- Children list of a named node; empty when the name has no entry. -/
def childrenOf (tree : List (String × TreeNode)) (n : String) : List String :=
  match assocFind tree n with
  | some d => d.children
  | none => []

theorem string_mk_data (s : String) : String.mk s.data = s := rfl

theorem sanitizeChar_ok (c : Char) : (sanitizeChar c).isAlphanum ∨ sanitizeChar c = '_' := by
  unfold sanitizeChar
  split
  · assumption
  · exact Or.inr rfl

/-- C10: for every input string, make_valid_prim_name returns a
non-empty string of alphanumeric characters and underscores whose
first character is not a digit. -/
theorem make_valid_prim_name_valid (name : String) :
    make_valid_prim_name name ≠ ""
    ∧ (∀ c ∈ (make_valid_prim_name name).data, c.isAlphanum ∨ c = '_')
    ∧ (∀ c, (make_valid_prim_name name).data.head? = some c → c.isDigit = false) := by
  unfold make_valid_prim_name
  cases hd : name.data.map sanitizeChar with
  | nil => exact ⟨by decide, by decide, by decide⟩
  | cons c cs =>
    have hmem : ∀ x ∈ c :: cs, x.isAlphanum ∨ x = '_' := by
      intro x hx
      have hx2 : x ∈ name.data.map sanitizeChar := by rw [hd]; exact hx
      obtain ⟨y, _, hy⟩ := List.mem_map.mp hx2
      exact hy ▸ sanitizeChar_ok y
    simp only [mkValidAux]
    by_cases hdig : c.isDigit
    · rw [if_pos hdig]
      refine ⟨?_, ?_, ?_⟩
      · intro habs
        have h2 : ('_' :: c :: cs : List Char) = [] := congrArg String.data habs
        simp at h2
      · intro x hx
        rcases List.mem_cons.mp hx with h1 | h2
        · exact Or.inr h1
        · exact hmem x h2
      · intro x hx
        simp only [List.head?_cons, Option.some.injEq] at hx
        rw [← hx]
        decide
    · rw [if_neg hdig]
      refine ⟨?_, ?_, ?_⟩
      · intro habs
        have h2 : (c :: cs : List Char) = [] := congrArg String.data habs
        simp at h2
      · exact hmem
      · intro x hx
        simp only [List.head?_cons, Option.some.injEq] at hx
        rw [← hx]
        simpa using hdig

/-- C5 counterexample: the suffix parser is not idempotent as claimed.
For the input name Chair_PAYLOAD_RENDER the parser strips only the
purpose marker (the payload marker is not outermost), producing the
base Chair_PAYLOAD; re-parsing that base strips the payload marker, so
the result is not the base with null purpose, null variant and payload
false. -/
theorem parse_name_suffixes_not_idempotent :
    parse_name_suffixes (parse_name_suffixes "Chair_PAYLOAD_RENDER").1
      ≠ ((parse_name_suffixes "Chair_PAYLOAD_RENDER").1,
         (none : Option String), (none : Option String), false) := by
  decide

/-- C5 (amended): re-parsing the base produced by the suffix parser
returns that base with null purpose, null variant and payload false,
provided the produced base itself retains no trailing payload, purpose
or variant marker.  (Without that proviso the claim is false: see the
counterexample.) -/
theorem parse_name_suffixes_idempotent_on_clean_base (name : String)
    (h1 : stripEndCI (parse_name_suffixes name).1.data "_payload".data = none)
    (h2 : stripEndCI (parse_name_suffixes name).1.data "_render".data = none)
    (h3 : stripEndCI (parse_name_suffixes name).1.data "_proxy".data = none)
    (h4 : stripEndCI (parse_name_suffixes name).1.data "_guide".data = none)
    (h5 : findVariantIdx (parse_name_suffixes name).1.data = none) :
    parse_name_suffixes (parse_name_suffixes name).1
      = ((parse_name_suffixes name).1, none, none, false) := by
  generalize hb : (parse_name_suffixes name).1 = b at h1 h2 h3 h4 h5
  show parse_name_suffixes b = (b, none, none, false)
  simp only [parse_name_suffixes, h1, h2, h3, h4, h5]

/-- C5 witness: a concrete run of the amended idempotence. -/
theorem parse_name_suffixes_idem_witness :
    stripEndCI (parse_name_suffixes "Teapot_VARIANTA_RENDER").1.data "_payload".data = none
    ∧ stripEndCI (parse_name_suffixes "Teapot_VARIANTA_RENDER").1.data "_render".data = none
    ∧ stripEndCI (parse_name_suffixes "Teapot_VARIANTA_RENDER").1.data "_proxy".data = none
    ∧ stripEndCI (parse_name_suffixes "Teapot_VARIANTA_RENDER").1.data "_guide".data = none
    ∧ findVariantIdx (parse_name_suffixes "Teapot_VARIANTA_RENDER").1.data = none
    ∧ parse_name_suffixes (parse_name_suffixes "Teapot_VARIANTA_RENDER").1
        = ((parse_name_suffixes "Teapot_VARIANTA_RENDER").1, none, none, false) :=
  ⟨by decide, by decide, by decide, by decide, by decide,
   parse_name_suffixes_idempotent_on_clean_base "Teapot_VARIANTA_RENDER"
     (by decide) (by decide) (by decide) (by decide) (by decide)⟩

theorem buildStep_none (tree : List (String × TreeNode)) (n : String) :
    buildStep tree (n, none) = tree := rfl

theorem buildStep_some (tree : List (String × TreeNode)) (n p : String) :
    buildStep tree (n, some p)
      = if (assocFind tree p).isSome then addChildTo tree p n else tree := rfl

theorem addChildTo_map_fst (tree : List (String × TreeNode)) (p c : String) :
    (addChildTo tree p c).map Prod.fst = tree.map Prod.fst := by
  unfold addChildTo
  rw [List.map_map]
  apply List.map_congr_left
  intro e _
  by_cases h : e.1 = p
  · simp [h]
  · simp [h]

theorem addChildTo_parent_proj (tree : List (String × TreeNode)) (p c : String) :
    (addChildTo tree p c).map (fun e => (e.1, e.2.parent))
      = tree.map (fun e => (e.1, e.2.parent)) := by
  unfold addChildTo
  rw [List.map_map]
  apply List.map_congr_left
  intro e _
  by_cases h : e.1 = p
  · simp [h]
  · simp [h]

theorem buildStep_map_fst (tree : List (String × TreeNode)) (e : String × Option String) :
    (buildStep tree e).map Prod.fst = tree.map Prod.fst := by
  obtain ⟨n, ep⟩ := e
  cases ep with
  | none => rw [buildStep_none]
  | some p =>
    rw [buildStep_some]
    by_cases hmem : (assocFind tree p).isSome
    · rw [if_pos hmem, addChildTo_map_fst]
    · rw [if_neg hmem]

theorem buildStep_parent_proj (tree : List (String × TreeNode)) (e : String × Option String) :
    (buildStep tree e).map (fun x => (x.1, x.2.parent))
      = tree.map (fun x => (x.1, x.2.parent)) := by
  obtain ⟨n, ep⟩ := e
  cases ep with
  | none => rw [buildStep_none]
  | some p =>
    rw [buildStep_some]
    by_cases hmem : (assocFind tree p).isSome
    · rw [if_pos hmem, addChildTo_parent_proj]
    · rw [if_neg hmem]

theorem build_fold_map_fst (l : List (String × Option String))
    (tree : List (String × TreeNode)) :
    (l.foldl buildStep tree).map Prod.fst = tree.map Prod.fst := by
  induction l generalizing tree with
  | nil => rfl
  | cons e t ih => rw [List.foldl_cons, ih, buildStep_map_fst]

theorem build_fold_parent_proj (l : List (String × Option String))
    (tree : List (String × TreeNode)) :
    (l.foldl buildStep tree).map (fun x => (x.1, x.2.parent))
      = tree.map (fun x => (x.1, x.2.parent)) := by
  induction l generalizing tree with
  | nil => rfl
  | cons e t ih => rw [List.foldl_cons, ih, buildStep_parent_proj]

theorem build_hierarchy_tree_map_fst (h : List (String × Option String)) :
    (build_hierarchy_tree h).map Prod.fst = h.map Prod.fst := by
  unfold build_hierarchy_tree
  rw [build_fold_map_fst, List.map_map]
  rfl

theorem build_hierarchy_tree_parent_proj (h : List (String × Option String)) :
    (build_hierarchy_tree h).map (fun e => (e.1, e.2.parent)) = h := by
  unfold build_hierarchy_tree
  rw [build_fold_parent_proj, List.map_map]
  exact List.map_id'' (fun e => rfl) h

theorem roots_of_parent_proj (l : List (String × TreeNode))
    (h2 : List (String × Option String))
    (hproj : l.map (fun e => (e.1, e.2.parent)) = h2) :
    (l.filter (fun e => e.2.parent = none)).map Prod.fst
      = (h2.filter (fun e => e.2 = none)).map Prod.fst := by
  induction l generalizing h2 with
  | nil => cases hproj; rfl
  | cons a l ih =>
    cases h2 with
    | nil => exact absurd hproj (by simp)
    | cons b t =>
      simp only [List.map_cons, List.cons.injEq] at hproj
      obtain ⟨hb, ht⟩ := hproj
      by_cases hp : a.2.parent = none
      · rw [List.filter_cons_of_pos (by simpa using hp),
            List.filter_cons_of_pos (by rw [← hb]; simpa using hp)]
        simp only [List.map_cons]
        rw [ih t ht, ← hb]
      · rw [List.filter_cons_of_neg (by simpa using hp),
            List.filter_cons_of_neg (by rw [← hb]; simpa using hp)]
        exact ih t ht

theorem assocFind_isSome_mem {κ β : Type} [DecidableEq κ]
    (l : List (κ × β)) (k : κ) (h : (assocFind l k).isSome) : k ∈ l.map Prod.fst := by
  induction l with
  | nil => simp [assocFind] at h
  | cons e rest ih =>
    by_cases hk : e.1 = k
    · simp [hk]
    · simp only [assocFind, hk, if_false] at h
      simp only [List.map_cons, List.mem_cons]
      right
      exact ih (by simpa [assocFind, hk] using h)

theorem build_fold_children_declared (h : List (String × Option String))
    (l : List (String × Option String)) (hl : ∀ e ∈ l, e ∈ h)
    (tree : List (String × TreeNode))
    (hkeys : tree.map Prod.fst = h.map Prod.fst)
    (hinv : ∀ m d, (m, d) ∈ tree → ∀ c ∈ d.children,
      ∃ q, (c, some q) ∈ h ∧ q ∈ h.map Prod.fst) :
    ∀ m d, (m, d) ∈ l.foldl buildStep tree →
      ∀ c ∈ d.children, ∃ q, (c, some q) ∈ h ∧ q ∈ h.map Prod.fst := by
  induction l generalizing tree with
  | nil => exact hinv
  | cons e t ih =>
    intro m d hmd c hc
    rw [List.foldl_cons] at hmd
    obtain ⟨en, ep⟩ := e
    have he : (en, ep) ∈ h := hl (en, ep) (List.mem_cons_self _ t)
    have hl2 : ∀ x ∈ t, x ∈ h := fun x hx => hl x (List.mem_cons_of_mem _ hx)
    cases ep with
    | none =>
      rw [buildStep_none] at hmd
      exact ih hl2 tree hkeys hinv m d hmd c hc
    | some p =>
      rw [buildStep_some] at hmd
      by_cases hfound : (assocFind tree p).isSome
      · rw [if_pos hfound] at hmd
        refine ih hl2 (addChildTo tree p en)
          (by rw [addChildTo_map_fst]; exact hkeys) ?_ m d hmd c hc
        intro m2 d2 hmd2 c2 hc2
        obtain ⟨e2, he2, heq⟩ := List.mem_map.mp hmd2
        by_cases hup : e2.1 = p
        · rw [if_pos hup] at heq
          have hd2 : ({ e2.2 with children := e2.2.children ++ [en] } : TreeNode) = d2 :=
            congrArg Prod.snd heq
          rw [← hd2] at hc2
          rcases List.mem_append.mp hc2 with hin | hlast
          · exact hinv e2.1 e2.2 he2 c2 hin
          · have hc2e : c2 = en := by simpa using hlast
            refine ⟨p, by rw [hc2e]; exact he, ?_⟩
            rw [← hkeys]
            exact assocFind_isSome_mem tree p hfound
        · rw [if_neg hup] at heq
          have hsnd : e2.2 = d2 := congrArg Prod.snd heq
          rw [← hsnd] at hc2
          exact hinv e2.1 e2.2 he2 c2 hc2
      · rw [if_neg hfound] at hmd
        exact ih hl2 tree hkeys hinv m d hmd c hc

theorem build_hierarchy_tree_children_declared (h : List (String × Option String)) :
    ∀ m d, (m, d) ∈ build_hierarchy_tree h → ∀ c ∈ d.children,
      ∃ q, (c, some q) ∈ h ∧ q ∈ h.map Prod.fst := by
  unfold build_hierarchy_tree
  refine build_fold_children_declared h h (fun e he => he) _ ?_ ?_
  · rw [List.map_map]
    rfl
  · intro m d hmd c hc
    obtain ⟨e, _, heq⟩ := List.mem_map.mp hmd
    have hne : ({ parent := e.2, children := [] } : TreeNode) = d := congrArg Prod.snd heq
    rw [← hne] at hc
    simp at hc

theorem nodup_keys_snd_eq {β : Type} (h : List (String × β))
    (hnodup : (h.map Prod.fst).Nodup) {a : String} {b b' : β}
    (h1 : (a, b) ∈ h) (h2 : (a, b') ∈ h) : b = b' := by
  induction h with
  | nil => simp at h1
  | cons e t ih =>
    simp only [List.map_cons, List.nodup_cons] at hnodup
    rcases List.mem_cons.mp h1 with hh1 | ht1 <;> rcases List.mem_cons.mp h2 with hh2 | ht2
    · rw [← hh2] at hh1
      exact congrArg Prod.snd hh1
    · exfalso
      apply hnodup.1
      have ha : a = e.1 := congrArg Prod.fst hh1
      rw [← ha]
      exact List.mem_map.mpr ⟨(a, b'), ht2, rfl⟩
    · exfalso
      apply hnodup.1
      have ha : a = e.1 := congrArg Prod.fst hh2
      rw [← ha]
      exact List.mem_map.mpr ⟨(a, b), ht1, rfl⟩
    · exact ih hnodup.2 ht1 ht2

/-- C9: from a flat entry table with distinct names, the tree builder
produces exactly one node per entry (in order), lists as roots exactly
the entries with null parent, and an entry whose parent name has no
entry of its own still appears in the map but is linked into no
children list. -/
theorem build_hierarchy_tree_shape (h : List (String × Option String))
    (hnodup : (h.map Prod.fst).Nodup) :
    ((build_hierarchy_tree h).map Prod.fst = h.map Prod.fst)
    ∧ (get_root_nodes (build_hierarchy_tree h)
        = (h.filter (fun e => e.2 = none)).map Prod.fst)
    ∧ (∀ n p, (n, some p) ∈ h → p ∉ h.map Prod.fst →
        ∀ m d, (m, d) ∈ build_hierarchy_tree h → n ∉ d.children) := by
  refine ⟨build_hierarchy_tree_map_fst h, ?_, ?_⟩
  · unfold get_root_nodes
    exact roots_of_parent_proj _ h (build_hierarchy_tree_parent_proj h)
  · intro n p hnp hpnot m d hmd hn
    obtain ⟨q, hq1, hq2⟩ := build_hierarchy_tree_children_declared h m d hmd n hn
    have : some p = some q := nodup_keys_snd_eq h hnodup hnp hq1
    rw [← Option.some.injEq p q |>.mp this] at hq2
    exact hpnot hq2

/-- C9 witness: concrete instantiation with an entry whose parent name
has no entry of its own. -/
theorem build_hierarchy_tree_shape_witness :
    ((([("A", none), ("B", some "A"), ("C", some "Zed")] :
        List (String × Option String)).map Prod.fst).Nodup)
    ∧ ((build_hierarchy_tree
          [("A", none), ("B", some "A"), ("C", some "Zed")]).map Prod.fst
        = ([("A", none), ("B", some "A"), ("C", some "Zed")] :
            List (String × Option String)).map Prod.fst) :=
  ⟨by decide,
   (build_hierarchy_tree_shape
      [("A", none), ("B", some "A"), ("C", some "Zed")] (by decide)).1⟩

/-- Character-list length of a string. -/
def strLen (s : String) : Nat := s.data.length

/-- Drop the first n characters of a string (Python slicing). -/
def strDrop (s : String) (n : Nat) : String := String.mk (s.data.drop n)

/-- Model of str.startswith. -/
def strStartsWith (s q : String) : Bool := decide (s.data.take q.data.length = q.data)

/-- Model of str.rstrip of slashes: remove every trailing slash. -/
def rstripSlashList : List Char → List Char
  | [] => []
  | c :: cs =>
    match rstripSlashList cs with
    | [] => if c = '/' then [] else [c]
    | r => c :: r

def rstripSlashes (s : String) : String := String.mk (rstripSlashList s.data)

/-- Model of str.lstrip of slashes: remove every leading slash. -/
def lstripSlashes (s : String) : String := String.mk (s.data.dropWhile (fun c => c = '/'))

/-- Does the path sit at or under the moved material scope?  This is
the per-material test inside the nest branch of remap_path_str. -/
def mtlHit (p sp m : String) : Bool :=
  strStartsWith p (sp ++ "/" ++ m ++ "/") || decide (p = sp ++ "/" ++ m)

/-- First-match loop over the material names inside remap_path_str
(Clone_USD_PropertiesChaser.py, lines 498-502). -/
def findMtlRemap (p sp t : String) : List String → Option String
  | [] => none
  | m :: rest =>
    if mtlHit p sp m then
      some ("/" ++ t ++ "/" ++ m ++ strDrop p (strLen (sp ++ "/" ++ m)))
    else findMtlRemap p sp t rest

/-- Nest branch of remap_path_str (source lines 498-502): active only
when the nest target is set (truthy) and the material-name list is
non-empty. -/
def remapNestStep (p sp : String) (nt : Option String) (mtls : List String) :
    Option String :=
  match nt with
  | some t => if t ≠ "" ∧ mtls ≠ [] then findMtlRemap p sp t mtls else none
  | none => none

/-- Strip branch of remap_path_str (source lines 503-514): strip the
prefix from a path at or under it and substitute the replacement
prefix, defaulting to the document root. -/
def remapStripStep (p sp : String) (rp : Option String) : Option String :=
  if strStartsWith p (sp ++ "/") then
    match rp with
    | none => some (strDrop p (strLen sp))
    | some r =>
      if r = "/" then some (strDrop p (strLen sp))
      else some (rstripSlashes r ++ strDrop p (strLen sp))
  else if p = sp then
    match rp with
    | some r => some (if r = "" then "/" else r)
    | none => some "/"
  else none

/-- Embedding of remap_path_str (Clone_USD_PropertiesChaser.py, lines
496-514): p is the path string, sp the strip prefix, nt the optional
nest target, mtls the material names and rp the optional replacement
prefix.  Returns the remapped string or none (the unchanged
sentinel). -/
def remap_path_str (p sp : String) (nt : Option String) (mtls : List String)
    (rp : Option String) : Option String :=
  match remapNestStep p sp nt mtls with
  | some r => some r
  | none => remapStripStep p sp rp

/-- One relationship-target (or attribute-connection) list pass of
remap_paths_in_place (lines 516-557): rebuild the list, tracking
whether any entry was genuinely changed. -/
def remapTargetStep (sp : String) (nt : Option String) (mtls : List String)
    (rp : Option String) (acc : List String × Bool) (t : String) : List String × Bool :=
  match remap_path_str t sp nt mtls rp with
  | some s => (acc.1 ++ [s], true)
  | none => (acc.1 ++ [t], acc.2)

def remapTargetFold (sp : String) (nt : Option String) (mtls : List String)
    (rp : Option String) (ts : List String) : List String × Bool :=
  ts.foldl (remapTargetStep sp nt mtls rp) ([], false)

/-- The caller re-authors the target list only when the changed flag is
set; the result is the re-authored list, or none when the list is left
untouched. -/
def reauthorTargets (sp : String) (nt : Option String) (mtls : List String)
    (rp : Option String) (ts : List String) : Option (List String) :=
  if ts = [] then none
  else
    let r := remapTargetFold sp nt mtls rp ts
    if r.2 then some r.1 else none

/-- Embedding of format_joint_token_path (lines 621-625): restore the
absolute or relative style of the original token. -/
def format_joint_token_path (p : String) (hadLeadingSlash : Bool) : String :=
  if hadLeadingSlash then p else lstripSlashes p

/-- Primary remap flow of remap_skeleton_joint_token (step 1 of lines
644-657): the plain remap, then the slash-prefixed retry for relative
tokens, then the relative strip-prefix retry. -/
def jointPrimaryRemap (token sp : String) (nt : Option String) (mtls : List String)
    (rp : Option String) (relSp : Option String) (hadSlash : Bool) : Option String :=
  match remap_path_str token sp nt mtls rp with
  | some r => some r
  | none =>
    if hadSlash then none
    else
      match remap_path_str ("/" ++ token) sp nt mtls rp with
      | some r => some r
      | none =>
        match relSp with
        | some rsp =>
          if rsp ≠ "" then
            let relP := lstripSlashes (rstripSlashes rsp)
            if strStartsWith token (relP ++ "/") then
              some (strDrop token (strLen relP + 1))
            else none
          else none
        | none => none

/-- Embedding of remap_skeleton_joint_token (lines 627-671).  The prim
existence test of the stage is abstracted as the oracle primExists. -/
def remap_skeleton_joint_token (token sp : String) (nt : Option String)
    (mtls : List String) (contentRoot : Option String) (rp : Option String)
    (relSp : Option String) (primExists : String → Bool) : String :=
  if token = "" then token
  else
    let hadSlash := strStartsWith token "/"
    match jointPrimaryRemap token sp nt mtls rp relSp hadSlash with
    | some r => format_joint_token_path r hadSlash
    | none =>
      match contentRoot with
      | none => token
      | some cr =>
        if cr = "" then token
        else
          let tokenAbs := if hadSlash then token else "/" ++ token
          if primExists tokenAbs then token
          else
            let prefd := "/" ++ cr ++ tokenAbs
            if primExists prefd then format_joint_token_path prefd hadSlash
            else token

theorem findMtlRemap_of_hit (p sp t : String) (mtls : List String)
    (h : ∃ m ∈ mtls, mtlHit p sp m = true) :
    ∃ m ∈ mtls, mtlHit p sp m = true ∧
      findMtlRemap p sp t mtls
        = some ("/" ++ t ++ "/" ++ m ++ strDrop p (strLen (sp ++ "/" ++ m))) := by
  induction mtls with
  | nil => simp at h
  | cons m rest ih =>
    by_cases hm : mtlHit p sp m = true
    · refine ⟨m, List.mem_cons_self m rest, hm, ?_⟩
      simp only [findMtlRemap]
      rw [if_pos hm]
    · obtain ⟨m2, hm2mem, hm2⟩ := h
      have hm2r : m2 ∈ rest := by
        rcases List.mem_cons.mp hm2mem with h1 | h2
        · rw [h1] at hm2
          exact absurd hm2 hm
        · exact h2
      obtain ⟨m3, h3mem, h3, heq⟩ := ih ⟨m2, hm2r, hm2⟩
      refine ⟨m3, List.mem_cons_of_mem m h3mem, h3, ?_⟩
      simp only [findMtlRemap]
      rw [if_neg hm]
      exact heq

theorem findMtlRemap_none (p sp t : String) (mtls : List String)
    (h : ∀ m ∈ mtls, ¬ mtlHit p sp m = true) :
    findMtlRemap p sp t mtls = none := by
  induction mtls with
  | nil => rfl
  | cons m rest ih =>
    simp only [findMtlRemap]
    rw [if_neg (h m (List.mem_cons_self m rest))]
    exact ih (fun x hx => h x (List.mem_cons_of_mem m hx))

theorem remapNestStep_none (p sp : String) (nt : Option String) (mtls : List String)
    (hne : ¬ ∃ t, nt = some t ∧ t ≠ "" ∧ ∃ m ∈ mtls, mtlHit p sp m = true) :
    remapNestStep p sp nt mtls = none := by
  cases nt with
  | none => rfl
  | some t =>
    show (if t ≠ "" ∧ mtls ≠ [] then findMtlRemap p sp t mtls else none) = none
    by_cases hc : t ≠ "" ∧ mtls ≠ []
    · rw [if_pos hc]
      apply findMtlRemap_none
      intro m hm hit
      exact hne ⟨t, rfl, hc.1, m, hm, hit⟩
    · rw [if_neg hc]

theorem remapTargetFold_snd (sp : String) (nt : Option String) (mtls : List String)
    (rp : Option String) (ts : List String) (acc : List String) (b : Bool) :
    (ts.foldl (remapTargetStep sp nt mtls rp) (acc, b)).2
      = (b || ts.any (fun t => (remap_path_str t sp nt mtls rp).isSome)) := by
  induction ts generalizing acc b with
  | nil => simp
  | cons t ts ih =>
    rw [List.foldl_cons]
    cases hr : remap_path_str t sp nt mtls rp with
    | some s =>
      simp only [remapTargetStep, hr]
      rw [ih]
      simp [hr]
    | none =>
      simp only [remapTargetStep, hr]
      rw [ih]
      simp [hr]

/-- C1: the path remapper applies its rules with the documented
precedence — (1) with a nest target set and the path at or under a
material scope beneath the strip prefix, the result renests that scope
under the nest target; (2) otherwise a path exactly at or under the
strip prefix has the prefix stripped and the replacement prefix
substituted (document root by default); (3) otherwise the unchanged
sentinel is returned — and a caller re-authors a target list exactly
when at least one entry is genuinely changed. -/
theorem remap_path_str_precedence (p sp : String) (nt : Option String)
    (mtls : List String) (rp : Option String) :
    ((∃ t, nt = some t ∧ t ≠ "" ∧ ∃ m ∈ mtls, mtlHit p sp m = true) →
      ∃ t m, nt = some t ∧ m ∈ mtls ∧ mtlHit p sp m = true ∧
        remap_path_str p sp nt mtls rp
          = some ("/" ++ t ++ "/" ++ m ++ strDrop p (strLen (sp ++ "/" ++ m))))
    ∧ ((¬ ∃ t, nt = some t ∧ t ≠ "" ∧ ∃ m ∈ mtls, mtlHit p sp m = true) →
        (strStartsWith p (sp ++ "/") = true ∨ p = sp) →
        remap_path_str p sp nt mtls rp
          = some (if strStartsWith p (sp ++ "/") = true then
                    match rp with
                    | none => strDrop p (strLen sp)
                    | some r =>
                      if r = "/" then strDrop p (strLen sp)
                      else rstripSlashes r ++ strDrop p (strLen sp)
                  else
                    match rp with
                    | some r => if r = "" then "/" else r
                    | none => "/"))
    ∧ ((¬ ∃ t, nt = some t ∧ t ≠ "" ∧ ∃ m ∈ mtls, mtlHit p sp m = true) →
        ¬ (strStartsWith p (sp ++ "/") = true ∨ p = sp) →
        remap_path_str p sp nt mtls rp = none)
    ∧ (∀ ts : List String,
        (reauthorTargets sp nt mtls rp ts).isSome = true
          ↔ ∃ x ∈ ts, remap_path_str x sp nt mtls rp ≠ none) := by
  refine ⟨?_, ?_, ?_, ?_⟩
  · rintro ⟨t, hnt, ht, hm⟩
    subst hnt
    obtain ⟨m, hmem, hhit, heq⟩ := findMtlRemap_of_hit p sp t mtls hm
    refine ⟨t, m, rfl, hmem, hhit, ?_⟩
    have hnest : remapNestStep p sp (some t) mtls
        = some ("/" ++ t ++ "/" ++ m ++ strDrop p (strLen (sp ++ "/" ++ m))) := by
      show (if t ≠ "" ∧ mtls ≠ [] then findMtlRemap p sp t mtls else none) = _
      rw [if_pos ⟨ht, List.ne_nil_of_mem hmem⟩]
      exact heq
    simp only [remap_path_str, hnest]
  · intro hne hor
    have h0 : remapNestStep p sp nt mtls = none := remapNestStep_none p sp nt mtls hne
    simp only [remap_path_str, h0]
    by_cases hstart : strStartsWith p (sp ++ "/") = true
    · rw [if_pos hstart]
      unfold remapStripStep
      rw [if_pos hstart]
      cases rp with
      | none => rfl
      | some r =>
        show (if r = "/" then some (strDrop p (strLen sp))
              else some (rstripSlashes r ++ strDrop p (strLen sp)))
            = some (if r = "/" then strDrop p (strLen sp)
                    else rstripSlashes r ++ strDrop p (strLen sp))
        by_cases hr : r = "/"
        · rw [if_pos hr, if_pos hr]
        · rw [if_neg hr, if_neg hr]
    · have hpe : p = sp := hor.resolve_left hstart
      rw [if_neg hstart]
      unfold remapStripStep
      rw [if_neg hstart, if_pos hpe]
      cases rp with
      | none => rfl
      | some r => rfl
  · intro hne hnor
    have h0 : remapNestStep p sp nt mtls = none := remapNestStep_none p sp nt mtls hne
    simp only [remap_path_str, h0]
    unfold remapStripStep
    rw [if_neg (fun h => hnor (Or.inl h)), if_neg (fun h => hnor (Or.inr h))]
  · intro ts
    unfold reauthorTargets
    by_cases hts : ts = []
    · rw [if_pos hts, hts]
      simp
    · rw [if_neg hts]
      have hsnd : (remapTargetFold sp nt mtls rp ts).2
          = ts.any (fun t => (remap_path_str t sp nt mtls rp).isSome) := by
        unfold remapTargetFold
        rw [remapTargetFold_snd]
        simp
      constructor
      · intro h
        by_cases hc : (remapTargetFold sp nt mtls rp ts).2 = true
        · rw [hsnd, List.any_eq_true] at hc
          obtain ⟨x, hx, hx2⟩ := hc
          exact ⟨x, hx, Option.isSome_iff_ne_none.mp hx2⟩
        · rw [if_neg hc] at h
          simp at h
      · rintro ⟨x, hx, hx2⟩
        have hc : (remapTargetFold sp nt mtls rp ts).2 = true := by
          rw [hsnd, List.any_eq_true]
          exact ⟨x, hx, Option.isSome_iff_ne_none.mpr hx2⟩
        rw [if_pos hc]
        rfl

/-- C1 witness: a concrete strip at the document root. -/
theorem remap_path_str_precedence_witness :
    remap_path_str "/root/geo" "/root" none [] none = some "/geo" := by
  have h := (remap_path_str_precedence "/root/geo" "/root" none [] none).2.1
    (by rintro ⟨t, ht, -⟩; exact Option.noConfusion ht) (Or.inl (by decide))
  rw [h]
  decide

theorem strStartsWith_iff (p q : String) :
    strStartsWith p q = true ↔ ∃ rs, p.data = q.data ++ rs := by
  unfold strStartsWith
  rw [decide_eq_true_eq]
  constructor
  · intro h
    refine ⟨p.data.drop q.data.length, ?_⟩
    conv_lhs => rw [← List.take_append_drop q.data.length p.data]
    rw [h]
  · rintro ⟨rs, hrs⟩
    rw [hrs]
    exact List.take_left q.data rs

theorem strStartsWith_append_slash (a b : String) (h : strStartsWith a "/" = true) :
    strStartsWith (a ++ b) "/" = true := by
  rw [strStartsWith_iff] at h ⊢
  obtain ⟨rs, hrs⟩ := h
  exact ⟨rs ++ b.data, by rw [String.data_append, hrs, List.append_assoc]⟩

theorem rstripSlashList_cons (c : Char) (cs : List Char) :
    rstripSlashList (c :: cs) = [] ∨ ∃ t, rstripSlashList (c :: cs) = c :: t := by
  cases h : rstripSlashList cs with
  | nil =>
    simp only [rstripSlashList, h]
    by_cases hc : c = '/'
    · left
      rw [if_pos hc]
    · right
      exact ⟨[], by rw [if_neg hc]⟩
  | cons a t =>
    right
    refine ⟨a :: t, ?_⟩
    simp only [rstripSlashList, h]

theorem strDrop_slash_of_under (p sp : String)
    (hstart : strStartsWith p (sp ++ "/") = true) :
    strStartsWith (strDrop p (strLen sp)) "/" = true := by
  rw [strStartsWith_iff] at hstart
  obtain ⟨rs, hrs⟩ := hstart
  rw [String.data_append] at hrs
  rw [strStartsWith_iff]
  refine ⟨rs, ?_⟩
  show (strDrop p (strLen sp)).data = '/' :: rs
  show p.data.drop sp.data.length = '/' :: rs
  rw [hrs, List.append_assoc]
  exact List.drop_left sp.data _

theorem remapStripStep_abs (p sp : String) (rp : Option String) (r : String)
    (hrp : rp = none ∨ ∃ r0, rp = some r0 ∧ strStartsWith r0 "/" = true)
    (h : remapStripStep p sp rp = some r) : strStartsWith r "/" = true := by
  unfold remapStripStep at h
  by_cases hstart : strStartsWith p (sp ++ "/") = true
  · rw [if_pos hstart] at h
    have hsuf := strDrop_slash_of_under p sp hstart
    rcases hrp with hn | ⟨r0, hr0, habs⟩
    · rw [hn] at h
      injection h with h
      rw [← h]
      exact hsuf
    · rw [hr0] at h
      have h2 : (if r0 = "/" then some (strDrop p (strLen sp))
          else some (rstripSlashes r0 ++ strDrop p (strLen sp))) = some r := h
      by_cases hslash : r0 = "/"
      · rw [if_pos hslash] at h2
        injection h2 with h2
        rw [← h2]
        exact hsuf
      · rw [if_neg hslash] at h2
        injection h2 with h2
        rw [← h2]
        rw [strStartsWith_iff] at habs
        obtain ⟨rs, hrs⟩ := habs
        cases hr1 : r0.data with
        | nil =>
          rw [hr1] at hrs
          exact absurd hrs (by simp)
        | cons c cs =>
          have hc : c = '/' := by
            rw [hr1] at hrs
            exact (List.cons.injEq _ _ _ _ ▸ hrs).1
          have hsplit : rstripSlashes r0 = "" ∨ strStartsWith (rstripSlashes r0) "/" = true := by
            unfold rstripSlashes
            rw [hr1]
            rcases rstripSlashList_cons c cs with h3 | ⟨t, h3⟩
            · left
              rw [h3]
            · right
              rw [h3, hc, strStartsWith_iff]
              exact ⟨t, rfl⟩
          rcases hsplit with h3 | h3
          · rw [h3]
            have hnil : ("" : String) ++ strDrop p (strLen sp) = strDrop p (strLen sp) :=
              congrArg String.mk rfl
            exact hnil.symm ▸ hsuf
          · exact strStartsWith_append_slash _ _ h3
  · rw [if_neg hstart] at h
    by_cases hpe : p = sp
    · rw [if_pos hpe] at h
      rcases hrp with hn | ⟨r0, hr0, habs⟩
      · rw [hn] at h
        injection h with h
        rw [← h]
        decide
      · rw [hr0] at h
        have h2 : some (if r0 = "" then "/" else r0) = some r := h
        injection h2 with h2
        rw [← h2]
        by_cases hr0e : r0 = ""
        · rw [if_pos hr0e]
          decide
        · rw [if_neg hr0e]
          exact habs
    · rw [if_neg hpe] at h
      exact Option.noConfusion h

theorem findMtlRemap_abs (p sp t : String) (mtls : List String) (r : String)
    (h : findMtlRemap p sp t mtls = some r) : strStartsWith r "/" = true := by
  induction mtls with
  | nil => exact Option.noConfusion h
  | cons m rest ih =>
    simp only [findMtlRemap] at h
    by_cases hm : mtlHit p sp m = true
    · rw [if_pos hm] at h
      injection h with h
      rw [← h]
      exact strStartsWith_append_slash _ _
        (strStartsWith_append_slash _ _
          (strStartsWith_append_slash _ _
            (strStartsWith_append_slash _ _ (by decide))))
    · rw [if_neg hm] at h
      exact ih h

theorem remapNestStep_abs (p sp : String) (nt : Option String) (mtls : List String)
    (r : String) (h : remapNestStep p sp nt mtls = some r) :
    strStartsWith r "/" = true := by
  cases nt with
  | none => exact Option.noConfusion h
  | some t =>
    have h2 : (if t ≠ "" ∧ mtls ≠ [] then findMtlRemap p sp t mtls else none) = some r := h
    by_cases hc : t ≠ "" ∧ mtls ≠ []
    · rw [if_pos hc] at h2
      exact findMtlRemap_abs p sp t mtls r h2
    · rw [if_neg hc] at h2
      exact Option.noConfusion h2

theorem remap_path_str_abs (p sp : String) (nt : Option String) (mtls : List String)
    (rp : Option String) (r : String)
    (hrp : rp = none ∨ ∃ r0, rp = some r0 ∧ strStartsWith r0 "/" = true)
    (h : remap_path_str p sp nt mtls rp = some r) : strStartsWith r "/" = true := by
  unfold remap_path_str at h
  cases hn : remapNestStep p sp nt mtls with
  | some r2 =>
    rw [hn] at h
    injection h with h
    rw [← h]
    exact remapNestStep_abs p sp nt mtls r2 hn
  | none =>
    rw [hn] at h
    exact remapStripStep_abs p sp rp r hrp h

theorem dropWhile_head_false {α : Type} (q : α → Bool) (l : List α) (c : α) (cs : List α)
    (h : l.dropWhile q = c :: cs) : q c = false := by
  induction l with
  | nil => exact absurd h (by simp)
  | cons a l ih =>
    by_cases ha : q a = true
    · rw [List.dropWhile_cons_of_pos ha] at h
      exact ih h
    · have ha2 : q a = false := by
        cases hqa : q a
        · rfl
        · exact absurd hqa ha
      rw [List.dropWhile_cons_of_neg (by rw [ha2]; exact Bool.false_ne_true)] at h
      have hac : a = c := (List.cons.injEq _ _ _ _ ▸ h).1
      rw [← hac]
      exact ha2

theorem lstripSlashes_no_slash (s : String) :
    strStartsWith (lstripSlashes s) "/" = false := by
  unfold lstripSlashes strStartsWith
  cases hd : s.data.dropWhile (fun c => c = '/') with
  | nil => simp
  | cons c cs =>
    have hc : decide (c = '/') = false :=
      dropWhile_head_false (fun x => decide (x = '/')) s.data c cs hd
    apply decide_eq_false
    intro habs
    have htake : (String.mk (c :: cs)).data.take (("/" : String).data.length) = [c] := rfl
    rw [htake] at habs
    have hc2 : c = '/' := (List.cons.injEq _ _ _ _ ▸ habs).1
    rw [hc2] at hc
    simp at hc

theorem jointPrimaryRemap_abs_of_slash (token sp : String) (nt : Option String)
    (mtls : List String) (rp : Option String) (relSp : Option String) (r : String)
    (hrp : rp = none ∨ ∃ r0, rp = some r0 ∧ strStartsWith r0 "/" = true)
    (h : jointPrimaryRemap token sp nt mtls rp relSp true = some r) :
    strStartsWith r "/" = true := by
  unfold jointPrimaryRemap at h
  cases hm : remap_path_str token sp nt mtls rp with
  | some r1 =>
    rw [hm] at h
    injection h with h
    rw [← h]
    exact remap_path_str_abs token sp nt mtls rp r1 hrp hm
  | none =>
    rw [hm] at h
    simp at h

theorem remap_joint_style_aux (token sp : String) (nt : Option String)
    (mtls : List String) (contentRoot : Option String) (rp : Option String)
    (relSp : Option String) (primExists : String → Bool)
    (hrp : rp = none ∨ ∃ r0, rp = some r0 ∧ strStartsWith r0 "/" = true) :
    strStartsWith (remap_skeleton_joint_token token sp nt mtls contentRoot rp relSp primExists) "/"
      = strStartsWith token "/" := by
  by_cases htok : token = ""
  · simp only [remap_skeleton_joint_token, if_pos htok]
  · by_cases hs : strStartsWith token "/" = true
    · have hmainT : remap_skeleton_joint_token token sp nt mtls contentRoot rp relSp primExists
          = (match jointPrimaryRemap token sp nt mtls rp relSp true with
             | some r => r
             | none =>
               match contentRoot with
               | none => token
               | some cr =>
                 if cr = "" then token
                 else if primExists token = true then token
                 else if primExists ("/" ++ cr ++ token) = true then "/" ++ cr ++ token
                 else token) := by
        simp only [remap_skeleton_joint_token, if_neg htok]
        rw [hs]
        cases jointPrimaryRemap token sp nt mtls rp relSp true with
        | some r => rfl
        | none =>
          cases contentRoot with
          | none => rfl
          | some cr => rfl
      rw [hmainT, hs]
      cases hj : jointPrimaryRemap token sp nt mtls rp relSp true with
      | some r =>
        show strStartsWith r "/" = true
        exact jointPrimaryRemap_abs_of_slash token sp nt mtls rp relSp r hrp hj
      | none =>
        cases contentRoot with
        | none => exact hs
        | some cr =>
          show strStartsWith
              (if cr = "" then token
               else if primExists token = true then token
               else if primExists ("/" ++ cr ++ token) = true then "/" ++ cr ++ token
               else token) "/" = true
          by_cases hcr : cr = ""
          · rw [if_pos hcr]
            exact hs
          · rw [if_neg hcr]
            by_cases h1 : primExists token = true
            · rw [if_pos h1]
              exact hs
            · rw [if_neg h1]
              by_cases h2 : primExists ("/" ++ cr ++ token) = true
              · rw [if_pos h2]
                exact strStartsWith_append_slash _ _
                  (strStartsWith_append_slash _ _ (by decide))
              · rw [if_neg h2]
                exact hs
    · have hs2 : strStartsWith token "/" = false := by
        cases hv : strStartsWith token "/"
        · rfl
        · exact absurd hv hs
      have hmainF : remap_skeleton_joint_token token sp nt mtls contentRoot rp relSp primExists
          = (match jointPrimaryRemap token sp nt mtls rp relSp false with
             | some r => lstripSlashes r
             | none =>
               match contentRoot with
               | none => token
               | some cr =>
                 if cr = "" then token
                 else if primExists ("/" ++ token) = true then token
                 else if primExists ("/" ++ cr ++ ("/" ++ token)) = true then
                   lstripSlashes ("/" ++ cr ++ ("/" ++ token))
                 else token) := by
        simp only [remap_skeleton_joint_token, if_neg htok]
        rw [hs2]
        cases jointPrimaryRemap token sp nt mtls rp relSp false with
        | some r => rfl
        | none =>
          cases contentRoot with
          | none => rfl
          | some cr => rfl
      rw [hmainF, hs2]
      cases hj : jointPrimaryRemap token sp nt mtls rp relSp false with
      | some r =>
        show strStartsWith (lstripSlashes r) "/" = false
        exact lstripSlashes_no_slash r
      | none =>
        cases contentRoot with
        | none => exact hs2
        | some cr =>
          show strStartsWith
              (if cr = "" then token
               else if primExists ("/" ++ token) = true then token
               else if primExists ("/" ++ cr ++ ("/" ++ token)) = true then
                 lstripSlashes ("/" ++ cr ++ ("/" ++ token))
               else token) "/" = false
          by_cases hcr : cr = ""
          · rw [if_pos hcr]
            exact hs2
          · rw [if_neg hcr]
            by_cases h1 : primExists ("/" ++ token) = true
            · rw [if_pos h1]
              exact hs2
            · rw [if_neg h1]
              by_cases h2 : primExists ("/" ++ cr ++ ("/" ++ token)) = true
              · rw [if_pos h2]
                exact lstripSlashes_no_slash _
              · rw [if_neg h2]
                exact hs2

theorem remap_joint_heuristic_aux (token sp : String) (nt : Option String)
    (mtls : List String) (contentRoot : Option String) (rp : Option String)
    (relSp : Option String) (primExists : String → Bool)
    (htok : token ≠ "") (hs : strStartsWith token "/" = false)
    (hjp : jointPrimaryRemap token sp nt mtls rp relSp false = none) :
    (((contentRoot = none ∨ contentRoot = some "") →
        remap_skeleton_joint_token token sp nt mtls contentRoot rp relSp primExists = token)
     ∧ (∀ cr, contentRoot = some cr → cr ≠ "" →
         primExists ("/" ++ token) = true →
         remap_skeleton_joint_token token sp nt mtls contentRoot rp relSp primExists = token)
     ∧ (∀ cr, contentRoot = some cr → cr ≠ "" →
         primExists ("/" ++ token) = false →
         primExists ("/" ++ cr ++ ("/" ++ token)) = false →
         remap_skeleton_joint_token token sp nt mtls contentRoot rp relSp primExists = token)
     ∧ (∀ cr, contentRoot = some cr → cr ≠ "" →
         primExists ("/" ++ token) = false →
         primExists ("/" ++ cr ++ ("/" ++ token)) = true →
         remap_skeleton_joint_token token sp nt mtls contentRoot rp relSp primExists
           = format_joint_token_path ("/" ++ cr ++ ("/" ++ token)) false)) := by
  have hmain : remap_skeleton_joint_token token sp nt mtls contentRoot rp relSp primExists
      = (match contentRoot with
         | none => token
         | some cr =>
           if cr = "" then token
           else if primExists ("/" ++ token) = true then token
           else if primExists ("/" ++ cr ++ ("/" ++ token)) = true then
             format_joint_token_path ("/" ++ cr ++ ("/" ++ token)) false
           else token) := by
    simp only [remap_skeleton_joint_token, if_neg htok]
    rw [hs, hjp]
    cases contentRoot with
    | none => rfl
    | some cr => rfl
  refine ⟨?_, ?_, ?_, ?_⟩
  · rintro (hc | hc)
    · rw [hmain, hc]
    · rw [hmain, hc]
      rfl
  · intro cr hc hcr hex
    rw [hmain, hc]
    show (if cr = "" then token
          else if primExists ("/" ++ token) = true then token
          else if primExists ("/" ++ cr ++ ("/" ++ token)) = true then
            format_joint_token_path ("/" ++ cr ++ ("/" ++ token)) false
          else token) = token
    rw [if_neg hcr, if_pos hex]
  · intro cr hc hcr hex hpre
    rw [hmain, hc]
    show (if cr = "" then token
          else if primExists ("/" ++ token) = true then token
          else if primExists ("/" ++ cr ++ ("/" ++ token)) = true then
            format_joint_token_path ("/" ++ cr ++ ("/" ++ token)) false
          else token) = token
    rw [if_neg hcr, if_neg (by simp [hex]), if_neg (by simp [hpre])]
  · intro cr hc hcr hex hpre
    rw [hmain, hc]
    show (if cr = "" then token
          else if primExists ("/" ++ token) = true then token
          else if primExists ("/" ++ cr ++ ("/" ++ token)) = true then
            format_joint_token_path ("/" ++ cr ++ ("/" ++ token)) false
          else token) = format_joint_token_path ("/" ++ cr ++ ("/" ++ token)) false
    rw [if_neg hcr, if_neg (by simp [hex]), if_pos hpre]

/-- C8: the skeleton joint-token remapper preserves the input token's
absolute-versus-relative style, and when a relative token is not
resolved by the primary remap it applies the content-root-name prefix
exactly when the prefixed path resolves to an existing prim while the
unprefixed path does not; otherwise the token is returned unchanged. -/
theorem remap_skeleton_joint_token_spec (token sp : String) (nt : Option String)
    (mtls : List String) (contentRoot : Option String) (rp : Option String)
    (relSp : Option String) (primExists : String → Bool)
    (hrp : rp = none ∨ ∃ r0, rp = some r0 ∧ strStartsWith r0 "/" = true) :
    (strStartsWith (remap_skeleton_joint_token token sp nt mtls contentRoot rp relSp primExists) "/"
        = strStartsWith token "/")
    ∧ (token ≠ "" → strStartsWith token "/" = false →
        jointPrimaryRemap token sp nt mtls rp relSp false = none →
        (((contentRoot = none ∨ contentRoot = some "") →
            remap_skeleton_joint_token token sp nt mtls contentRoot rp relSp primExists = token)
         ∧ (∀ cr, contentRoot = some cr → cr ≠ "" →
             primExists ("/" ++ token) = true →
             remap_skeleton_joint_token token sp nt mtls contentRoot rp relSp primExists = token)
         ∧ (∀ cr, contentRoot = some cr → cr ≠ "" →
             primExists ("/" ++ token) = false →
             primExists ("/" ++ cr ++ ("/" ++ token)) = false →
             remap_skeleton_joint_token token sp nt mtls contentRoot rp relSp primExists = token)
         ∧ (∀ cr, contentRoot = some cr → cr ≠ "" →
             primExists ("/" ++ token) = false →
             primExists ("/" ++ cr ++ ("/" ++ token)) = true →
             remap_skeleton_joint_token token sp nt mtls contentRoot rp relSp primExists
               = format_joint_token_path ("/" ++ cr ++ ("/" ++ token)) false))) :=
  ⟨remap_joint_style_aux token sp nt mtls contentRoot rp relSp primExists hrp,
   fun htok hs hjp =>
     remap_joint_heuristic_aux token sp nt mtls contentRoot rp relSp primExists htok hs hjp⟩

/-- C8 witness: a relative joint token unresolved by the primary remap
gets the content-root prefix because only the prefixed prim exists, and
the output stays relative. -/
theorem remap_skeleton_joint_token_spec_witness :
    remap_skeleton_joint_token "Bip001" "/root" none [] (some "Scene") none none
        (fun s => decide (s = "/Scene/Bip001")) = "Scene/Bip001" := by
  have h := (remap_skeleton_joint_token_spec "Bip001" "/root" none [] (some "Scene") none none
      (fun s => decide (s = "/Scene/Bip001")) (Or.inl rfl)).2
    (by decide) (by decide) (by decide)
  have h4 := h.2.2.2 "Scene" rfl (by decide) (by decide) (by decide)
  rw [h4]
  decide

/-- State of one named variant set on a prim: the authored variant
names in creation order and the current selection. -/
structure VariantSetState where
  variants : List String
  selected : Option String
deriving DecidableEq, Repr

/-- Model of AddVariant: adding an already-present variant name is a
no-op. -/
def addVariantName (vs : List String) (v : String) : List String :=
  if v ∈ vs then vs else vs ++ [v]

/-- A sibling-group member as seen by the assembler variant branches:
its name, parsed variant tag, payload flag, and whether a source file
for it was found in the export directory. -/
structure AItem where
  name : String
  variant : Option String
  is_payload : Bool
  hasFile : Bool
deriving DecidableEq, Repr

/-- The variant name the assembler assigns to a member: its tag, or
the literal default for an unsuffixed member. -/
def assignedVariantName (it : AItem) : String :=
  match it.variant with
  | some t => t
  | none => "default"

/-- One loop iteration of the assembler variant-set construction
(Clone_USD_StageAssembler.py, lines 594-601 and 525-532): members whose
source file is missing are skipped; otherwise the member's variant name
is added and selected. -/
def assemblerVariantStep (vs : VariantSetState) (it : AItem) : VariantSetState :=
  if it.hasFile then
    { variants := addVariantName vs.variants (assignedVariantName it),
      selected := some (assignedVariantName it) }
  else vs

/-- The assembler variant-set construction for one sibling group
(lines 588-617, and identically 500-548 for a purpose bucket): loop
over the members, then set the final selection to the default variant
when an unsuffixed member exists, else to the tag of the first
variant-tagged member. -/
def buildAssemblerVariantSet (items : List AItem) : VariantSetState :=
  let loopState := items.foldl assemblerVariantStep { variants := [], selected := none }
  match items.find? (fun it => it.variant = none) with
  | some _ => { loopState with selected := some "default" }
  | none =>
    match items.filter (fun it => it.variant ≠ none) with
    | [] => loopState
    | v :: _ => { loopState with selected := some (assignedVariantName v) }

/-- Variant names assigned to the members whose source file resolves,
in loop order. -/
def assemblerAssignedVariantNames (items : List AItem) : List String :=
  items.filterMap (fun it => if it.hasFile then some (assignedVariantName it) else none)

/-- Model of the anchored variant-name regex of the Variant
Restructurer (Clone_USD_PropertiesChaser.py, line 738): a non-empty
non-greedy base, the VARIANT marker, and a word-character tag to the
end; the leftmost (shortest-base) split wins and an empty tag defaults
to "1". -/
def matchVariantName (name : String) : Option (String × String) :=
  let l := name.data
  match (List.range (l.length + 1)).find? (fun i => decide (1 ≤ i) && variantMatchAt l i) with
  | some i =>
    let tag := l.drop (i + 8)
    some (String.mk (l.take i), if tag = [] then "1" else String.mk tag)
  | none => none

/-- Grouping pass of the Variant Restructurer (lines 737-749) restricted
to the children of one parent: collect (tag, name) pairs per base
name, in discovery order. -/
def collectVariantGroups (siblings : List String) :
    List (String × List (String × String)) :=
  siblings.foldl
    (fun acc n =>
      match matchVariantName n with
      | some bt => assocAppend acc bt.1 (bt.2, n)
      | none => acc)
    []

/-- Variant-set construction of the Variant Restructurer for one group
(lines 755-794): groups with fewer than two members are skipped;
otherwise every member's tag is added as a variant and the first
member's tag is selected at the end. -/
def process_variants_group (members : List (String × String)) : Option VariantSetState :=
  if members.length < 2 then none
  else
    match members with
    | [] => none
    | m0 :: _ =>
      some
        { variants := members.foldl (fun acc m => addVariantName acc m.1) [],
          selected := some m0.1 }

theorem assemblerVariantStep_hasFile (vs : VariantSetState) (it : AItem)
    (hf : it.hasFile = true) :
    assemblerVariantStep vs it
      = { variants := addVariantName vs.variants (assignedVariantName it),
          selected := some (assignedVariantName it) } := by
  unfold assemblerVariantStep
  rw [if_pos hf]

theorem assemblerVariantStep_noFile (vs : VariantSetState) (it : AItem)
    (hf : ¬ it.hasFile = true) : assemblerVariantStep vs it = vs := by
  unfold assemblerVariantStep
  rw [if_neg hf]

theorem addVariantName_mem (vs : List String) (v : String) (h : v ∈ vs) :
    addVariantName vs v = vs := by
  unfold addVariantName
  rw [if_pos h]

theorem addVariantName_not_mem (vs : List String) (v : String) (h : v ∉ vs) :
    addVariantName vs v = vs ++ [v] := by
  unfold addVariantName
  rw [if_neg h]

theorem assemblerAssignedVariantNames_cons_hasFile (it : AItem) (items : List AItem)
    (hf : it.hasFile = true) :
    assemblerAssignedVariantNames (it :: items)
      = assignedVariantName it :: assemblerAssignedVariantNames items := by
  unfold assemblerAssignedVariantNames
  rw [List.filterMap_cons]
  rw [if_pos hf]

theorem assemblerAssignedVariantNames_cons_noFile (it : AItem) (items : List AItem)
    (hf : ¬ it.hasFile = true) :
    assemblerAssignedVariantNames (it :: items)
      = assemblerAssignedVariantNames items := by
  unfold assemblerAssignedVariantNames
  rw [List.filterMap_cons]
  rw [if_neg hf]

theorem assembler_loop_variants (items : List AItem) (vs0 : List String)
    (sel0 : Option String) :
    (items.foldl assemblerVariantStep { variants := vs0, selected := sel0 }).variants
      = (assemblerAssignedVariantNames items).foldl addVariantName vs0 := by
  induction items generalizing vs0 sel0 with
  | nil => rfl
  | cons it items ih =>
    rw [List.foldl_cons]
    by_cases hf : it.hasFile = true
    · rw [assemblerVariantStep_hasFile _ _ hf, assemblerAssignedVariantNames_cons_hasFile _ _ hf,
        List.foldl_cons]
      exact ih _ _
    · rw [assemblerVariantStep_noFile _ _ hf, assemblerAssignedVariantNames_cons_noFile _ _ hf]
      exact ih _ _

theorem foldl_addVariantName_nodup_toFinset (l : List String) (acc : List String)
    (hacc : acc.Nodup) :
    (l.foldl addVariantName acc).Nodup
      ∧ (l.foldl addVariantName acc).toFinset = acc.toFinset ∪ l.toFinset := by
  induction l generalizing acc with
  | nil =>
    refine ⟨hacc, ?_⟩
    simp
  | cons a l ih =>
    rw [List.foldl_cons]
    by_cases ha : a ∈ acc
    · rw [addVariantName_mem acc a ha]
      obtain ⟨h1, h2⟩ := ih acc hacc
      refine ⟨h1, ?_⟩
      rw [h2]
      ext x
      simp only [Finset.mem_union, List.mem_toFinset, List.mem_cons]
      constructor
      · rintro (hx | hx)
        · exact Or.inl hx
        · exact Or.inr (Or.inr hx)
      · rintro (hx | hx | hx)
        · exact Or.inl hx
        · rw [hx]
          exact Or.inl ha
        · exact Or.inr hx
    · rw [addVariantName_not_mem acc a ha]
      have hdisj : acc.Disjoint [a] := by
        intro x hx hxa
        rw [List.mem_singleton] at hxa
        rw [hxa] at hx
        exact ha hx
      have hacc2 : (acc ++ [a]).Nodup :=
        List.nodup_append.mpr ⟨hacc, List.nodup_singleton a, hdisj⟩
      obtain ⟨h1, h2⟩ := ih (acc ++ [a]) hacc2
      refine ⟨h1, ?_⟩
      rw [h2]
      ext x
      simp only [Finset.mem_union, List.mem_toFinset, List.mem_append,
        List.mem_singleton, List.mem_cons]
      tauto

theorem foldl_addVariantName_length (l : List String) :
    (l.foldl addVariantName []).length = l.dedup.length := by
  obtain ⟨h1, h2⟩ := foldl_addVariantName_nodup_toFinset l [] List.nodup_nil
  have h3 : (l.foldl addVariantName []).toFinset.card = (l.foldl addVariantName []).length :=
    List.toFinset_card_of_nodup h1
  rw [← h3, h2]
  simp [List.card_toFinset]

/-- C2 counterexample: two sibling variant members whose names produce
the same tag (the empty tag defaults to the tag 1) collapse into a
single variant, so the variant count is 1 while the group size is 2;
the claimed equality with group size fails. -/
theorem variant_count_counterexample :
    collectVariantGroups ["Teapot_VARIANT", "Teapot_VARIANT1"]
        = [("Teapot", [("1", "Teapot_VARIANT"), ("1", "Teapot_VARIANT1")])]
    ∧ process_variants_group [("1", "Teapot_VARIANT"), ("1", "Teapot_VARIANT1")]
        = some { variants := ["1"], selected := some "1" }
    ∧ ¬ ((1 : Nat) = 2) := by
  refine ⟨by decide, by decide, by decide⟩

/-- C2 (amended): for a sibling group with at least two variant-tagged
members, the variant set built by the Composition Assembler has
variant count equal to the number of distinct variant names among the
members whose source file resolves, and the one built by the Variant
Restructurer has variant count equal to the number of distinct tags
among the group members; in both cases exactly one variant is selected
when the operation finishes.  (The claimed equality with the raw group
size fails when tags collide or a member's file is missing: see the
counterexample.) -/
theorem variant_set_distinct_count :
    (∀ items : List AItem,
      2 ≤ (items.filter (fun it => it.variant ≠ none)).length →
      (buildAssemblerVariantSet items).variants.length
          = (assemblerAssignedVariantNames items).dedup.length
        ∧ (buildAssemblerVariantSet items).selected.isSome = true)
    ∧ (∀ members : List (String × String),
      2 ≤ members.length →
      ∃ vs, process_variants_group members = some vs
        ∧ vs.variants.length = (members.map Prod.fst).dedup.length
        ∧ vs.selected.isSome = true) := by
  constructor
  · intro items hlen
    have hvar : (buildAssemblerVariantSet items).variants
        = (assemblerAssignedVariantNames items).foldl addVariantName [] := by
      unfold buildAssemblerVariantSet
      cases hfind : items.find? (fun it => it.variant = none) with
      | some d =>
        simp only [hfind]
        exact assembler_loop_variants items [] none
      | none =>
        simp only [hfind]
        cases hfil : items.filter (fun it => it.variant ≠ none) with
        | nil =>
          simp only
          exact assembler_loop_variants items [] none
        | cons v vrest =>
          simp only
          exact assembler_loop_variants items [] none
    constructor
    · rw [hvar]
      exact foldl_addVariantName_length _
    · unfold buildAssemblerVariantSet
      cases hfind : items.find? (fun it => it.variant = none) with
      | some d => simp
      | none =>
        cases hfil : items.filter (fun it => it.variant ≠ none) with
        | nil =>
          rw [hfil] at hlen
          simp at hlen
        | cons v vrest => simp
  · intro members hlen
    unfold process_variants_group
    rw [if_neg (by omega)]
    cases members with
    | nil => simp at hlen
    | cons m0 rest =>
      refine ⟨_, rfl, ?_, rfl⟩
      show ((m0 :: rest).foldl (fun acc m => addVariantName acc m.1) []).length
          = ((m0 :: rest).map Prod.fst).dedup.length
      rw [← foldl_addVariantName_length ((m0 :: rest).map Prod.fst), List.foldl_map]

/-- C2 witness: a two-variant group with distinct tags, in both the
assembler and the restructurer models. -/
theorem variant_set_distinct_count_witness :
    (2 ≤ (([⟨"Lamp_VARIANTA", some "A", false, true⟩,
            ⟨"Lamp_VARIANTB", some "B", false, true⟩] : List AItem).filter
            (fun it => it.variant ≠ none)).length
      ∧ (buildAssemblerVariantSet
            [⟨"Lamp_VARIANTA", some "A", false, true⟩,
             ⟨"Lamp_VARIANTB", some "B", false, true⟩]).variants.length
          = (assemblerAssignedVariantNames
              [⟨"Lamp_VARIANTA", some "A", false, true⟩,
               ⟨"Lamp_VARIANTB", some "B", false, true⟩]).dedup.length
      ∧ (buildAssemblerVariantSet
            [⟨"Lamp_VARIANTA", some "A", false, true⟩,
             ⟨"Lamp_VARIANTB", some "B", false, true⟩]).selected.isSome = true)
    ∧ (2 ≤ ([("A", "Lamp_VARIANTA"), ("B", "Lamp_VARIANTB")] :
          List (String × String)).length
      ∧ ∃ vs, process_variants_group [("A", "Lamp_VARIANTA"), ("B", "Lamp_VARIANTB")] = some vs
          ∧ vs.variants.length
              = (([("A", "Lamp_VARIANTA"), ("B", "Lamp_VARIANTB")] :
                  List (String × String)).map Prod.fst).dedup.length
          ∧ vs.selected.isSome = true) :=
  ⟨⟨by decide,
    (variant_set_distinct_count.1
      [⟨"Lamp_VARIANTA", some "A", false, true⟩,
       ⟨"Lamp_VARIANTB", some "B", false, true⟩] (by decide)).1,
    (variant_set_distinct_count.1
      [⟨"Lamp_VARIANTA", some "A", false, true⟩,
       ⟨"Lamp_VARIANTB", some "B", false, true⟩] (by decide)).2⟩,
   ⟨by decide,
    variant_set_distinct_count.2 [("A", "Lamp_VARIANTA"), ("B", "Lamp_VARIANTB")] (by decide)⟩⟩

/-- A sibling-group member record built by get_sibling_groups
(Clone_USD_StageAssembler.py, lines 343-369). -/
structure GItem where
  name : String
  base : String
  purpose : Option String
  variant : Option String
  is_payload : Bool
deriving DecidableEq, Repr

/-- Embedding of get_sibling_groups: group sibling names by the base
name produced by the suffix parser, keeping dict insertion order. -/
def get_sibling_groups (children : List String) : List (String × List GItem) :=
  children.foldl
    (fun acc n =>
      let p := parse_name_suffixes n
      assocAppend acc p.1
        { name := n, base := p.1, purpose := p.2.1, variant := p.2.2.1,
          is_payload := p.2.2.2 })
    []

/-- The purpose-bucket key of a member: its purpose, or the literal
default for an unsuffixed member (source line 485). -/
def purposeKey (it : GItem) : String :=
  match it.purpose with
  | some s => s
  | none => "default"

/-- The by-purpose dict of the purpose branch (lines 483-488). -/
def group_by_purpose (group : List GItem) : List (String × List GItem) :=
  group.foldl (fun acc it => assocAppend acc (purposeKey it) it) []

/-- Does the group contain a proxy or guide member?  This is the
intersection test of line 490 on the set of purposes of the group. -/
def hasProxyOrGuide (group : List GItem) : Bool :=
  group.any (fun it => it.purpose = some "proxy" || it.purpose = some "guide")

/-- Embedding of the default-bucket merge (lines 490-494): when an
unsuffixed bucket exists and a proxy or guide sibling exists, the
default bucket is folded into the render bucket (or becomes it). -/
def merge_default_bucket (group : List GItem) : List (String × List GItem) :=
  let bp := group_by_purpose group
  if (assocFind bp "default").isSome ∧ hasProxyOrGuide group = true then
    let defaultItems := match assocFind bp "default" with
      | some l => l
      | none => []
    if (assocFind bp "render").isSome then
      (bp.map (fun e => if e.1 = "render" then (e.1, e.2 ++ defaultItems) else e)).filter
        (fun e => e.1 ≠ "default")
    else
      (bp.filter (fun e => e.1 ≠ "default")) ++ [("render", defaultItems)]
  else bp

theorem assocFind_assocAppend_same {α : Type} (l : List (String × List α)) (k : String)
    (v : α) :
    assocFind (assocAppend l k v) k
      = some ((assocFind l k).getD [] ++ [v]) := by
  induction l with
  | nil => simp [assocAppend, assocFind]
  | cons e rest ih =>
    by_cases he : e.1 = k
    · simp only [assocAppend, if_pos he, assocFind]
      rfl
    · simp only [assocAppend, if_neg he, assocFind]
      exact ih

theorem assocFind_assocAppend_ne {α : Type} (l : List (String × List α)) (k kq : String)
    (v : α) (h : k ≠ kq) :
    assocFind (assocAppend l k v) kq = assocFind l kq := by
  induction l with
  | nil =>
    simp only [assocAppend, assocFind]
    rw [if_neg h]
  | cons e rest ih =>
    by_cases he : e.1 = k
    · simp only [assocAppend, if_pos he, assocFind]
      by_cases hq : e.1 = kq
      · rw [he] at hq
        exact absurd hq h
      · rw [if_neg hq, if_neg hq]
    · simp only [assocAppend, if_neg he, assocFind]
      by_cases hq : e.1 = kq
      · rw [if_pos hq, if_pos hq]
      · rw [if_neg hq, if_neg hq]
        exact ih

theorem group_fold_lookup (keyf : GItem → String) (g : List GItem)
    (acc : List (String × List GItem)) (k : String) :
    assocFind (g.foldl (fun a it => assocAppend a (keyf it) it) acc) k
      = (match assocFind acc k with
         | some v => some (v ++ g.filter (fun it => keyf it = k))
         | none =>
           if g.filter (fun it => keyf it = k) = [] then none
           else some (g.filter (fun it => keyf it = k))) := by
  induction g generalizing acc with
  | nil =>
    cases hf : assocFind acc k with
    | some v => simp [hf]
    | none => simp [hf]
  | cons it g ih =>
    rw [List.foldl_cons, ih]
    by_cases hkey : keyf it = k
    · rw [List.filter_cons_of_pos (by simpa using hkey)]
      rw [hkey] at *
      rw [assocFind_assocAppend_same]
      cases hf : assocFind acc k with
      | some v => simp
      | none => simp
    · rw [List.filter_cons_of_neg (by simpa using hkey)]
      rw [assocFind_assocAppend_ne acc (keyf it) k it hkey]

theorem assocFind_filter_self {β : Type} (l : List (String × β)) (k : String) :
    assocFind (l.filter (fun e => e.1 ≠ k)) k = none := by
  induction l with
  | nil => rfl
  | cons e rest ih =>
    by_cases he : e.1 = k
    · rw [List.filter_cons_of_neg (by simpa using he)]
      exact ih
    · rw [List.filter_cons_of_pos (by simpa using he)]
      simp only [assocFind]
      rw [if_neg he]
      exact ih

theorem assocFind_filter_ne {β : Type} (l : List (String × β)) (k kq : String)
    (h : kq ≠ k) :
    assocFind (l.filter (fun e => e.1 ≠ k)) kq = assocFind l kq := by
  induction l with
  | nil => rfl
  | cons e rest ih =>
    by_cases he : e.1 = k
    · rw [List.filter_cons_of_neg (by simpa using he)]
      simp only [assocFind]
      rw [if_neg (by rw [he]; exact fun h2 => h h2.symm)]
      exact ih
    · rw [List.filter_cons_of_pos (by simpa using he)]
      simp only [assocFind]
      by_cases hq : e.1 = kq
      · rw [if_pos hq, if_pos hq]
      · rw [if_neg hq, if_neg hq]
        exact ih

theorem assocFind_map_update {β : Type} (l : List (String × β)) (k : String)
    (f : β → β) :
    assocFind (l.map (fun e => if e.1 = k then (e.1, f e.2) else e)) k
      = (assocFind l k).map f := by
  induction l with
  | nil => rfl
  | cons e rest ih =>
    by_cases he : e.1 = k
    · rw [List.map_cons, if_pos he]
      simp only [assocFind]
      rw [if_pos he, if_pos he]
      rfl
    · rw [List.map_cons, if_neg he]
      simp only [assocFind]
      rw [if_neg he, if_neg he]
      exact ih

theorem assocFind_append {β : Type} (l1 l2 : List (String × β)) (k : String) :
    assocFind (l1 ++ l2) k
      = (match assocFind l1 k with
         | some v => some v
         | none => assocFind l2 k) := by
  induction l1 with
  | nil => rfl
  | cons e rest ih =>
    rw [List.cons_append]
    simp only [assocFind]
    by_cases he : e.1 = k
    · rw [if_pos he, if_pos he]
    · rw [if_neg he, if_neg he]
      exact ih

/-- C7: in the purpose branch of the assembler, the unsuffixed
(default) bucket is merged into the render bucket exactly when a proxy
or guide sibling exists in the group; when the only suffixed siblings
are render ones, the default bucket stays a separate bucket. -/
theorem purpose_default_merge (group : List GItem)
    (hd : ∃ it ∈ group, it.purpose = none)
    (hwf : ∀ it ∈ group, it.purpose ≠ some "default") :
    ((assocFind (merge_default_bucket group) "default" = none)
        ↔ hasProxyOrGuide group = true)
    ∧ (hasProxyOrGuide group = true →
        ∃ l, assocFind (merge_default_bucket group) "render" = some l
          ∧ ∀ it ∈ group, it.purpose = none → it ∈ l)
    ∧ (hasProxyOrGuide group = false →
        assocFind (merge_default_bucket group) "default"
          = some (group.filter (fun it => it.purpose = none))) := by
  have hfilter_eq : group.filter (fun it => purposeKey it = "default")
      = group.filter (fun it => it.purpose = none) := by
    apply List.filter_congr
    intro it hit
    cases hp : it.purpose with
    | none => simp [purposeKey, hp]
    | some s =>
      have hs : ¬ s = "default" := fun h => hwf it hit (by rw [hp, h])
      simp [purposeKey, hp, hs]
  have hdne : group.filter (fun it => it.purpose = none) ≠ [] := by
    obtain ⟨it0, hmem, hp⟩ := hd
    exact List.ne_nil_of_mem (List.mem_filter.mpr ⟨hmem, by simp [hp]⟩)
  have hbp_default : assocFind (group_by_purpose group) "default"
      = some (group.filter (fun it => it.purpose = none)) := by
    unfold group_by_purpose
    rw [group_fold_lookup purposeKey group [] "default"]
    show (if group.filter (fun it => purposeKey it = "default") = [] then none
          else some (group.filter (fun it => purposeKey it = "default")))
        = some (group.filter (fun it => it.purpose = none))
    rw [hfilter_eq, if_neg hdne]
  by_cases hpog : hasProxyOrGuide group = true
  · have hcond : (assocFind (group_by_purpose group) "default").isSome
        ∧ hasProxyOrGuide group = true := ⟨by rw [hbp_default]; rfl, hpog⟩
    have hmerged : merge_default_bucket group
        = (if (assocFind (group_by_purpose group) "render").isSome then
            ((group_by_purpose group).map
              (fun e => if e.1 = "render" then
                (e.1, e.2 ++ group.filter (fun it => it.purpose = none)) else e)).filter
              (fun e => e.1 ≠ "default")
          else ((group_by_purpose group).filter (fun e => e.1 ≠ "default"))
            ++ [("render", group.filter (fun it => it.purpose = none))]) := by
      simp only [merge_default_bucket]
      rw [if_pos hcond, hbp_default]
    refine ⟨?_, ?_, ?_⟩
    · rw [hmerged]
      by_cases hrender : (assocFind (group_by_purpose group) "render").isSome
      · rw [if_pos hrender]
        constructor
        · intro _
          exact hpog
        · intro _
          exact assocFind_filter_self _ "default"
      · rw [if_neg hrender]
        constructor
        · intro _
          exact hpog
        · intro _
          rw [assocFind_append]
          rw [assocFind_filter_self _ "default"]
          show assocFind [("render", group.filter (fun it => it.purpose = none))] "default" = none
          simp [assocFind]
    · intro _
      rw [hmerged]
      by_cases hrender : (assocFind (group_by_purpose group) "render").isSome
      · rw [if_pos hrender]
        obtain ⟨rl, hrl⟩ := Option.isSome_iff_exists.mp hrender
        refine ⟨rl ++ group.filter (fun it => it.purpose = none), ?_, ?_⟩
        · rw [assocFind_filter_ne _ _ _ (by decide),
            assocFind_map_update (group_by_purpose group) "render"
              (fun x => x ++ group.filter (fun it => it.purpose = none)), hrl]
          rfl
        · intro it hit hp
          exact List.mem_append_right rl (List.mem_filter.mpr ⟨hit, by simp [hp]⟩)
      · rw [if_neg hrender]
        refine ⟨group.filter (fun it => it.purpose = none), ?_, ?_⟩
        · rw [assocFind_append]
          rw [assocFind_filter_ne _ _ _ (by decide)]
          have hnone : assocFind (group_by_purpose group) "render" = none :=
            Option.not_isSome_iff_eq_none.mp hrender
          rw [hnone]
          show assocFind [("render", group.filter (fun it => it.purpose = none))] "render"
              = some (group.filter (fun it => it.purpose = none))
          simp [assocFind]
        · intro it hit hp
          exact List.mem_filter.mpr ⟨hit, by simp [hp]⟩
    · intro hfalse
      rw [hfalse] at hpog
      exact Bool.noConfusion hpog
  · have hmerged : merge_default_bucket group = group_by_purpose group := by
      simp only [merge_default_bucket]
      rw [if_neg (fun hc => hpog hc.2)]
    refine ⟨?_, ?_, ?_⟩
    · rw [hmerged, hbp_default]
      constructor
      · intro h
        exact absurd h (by simp)
      · intro h
        exact absurd h hpog
    · intro h
      exact absurd h hpog
    · intro _
      rw [hmerged, hbp_default]

/-- C7 witness: an unsuffixed sibling next to a proxy sibling is
merged into the render bucket. -/
theorem purpose_default_merge_witness :
    (∃ it ∈ ([⟨"Chair", "Chair", none, none, false⟩,
              ⟨"Chair_PROXY", "Chair", some "proxy", none, false⟩] : List GItem),
        it.purpose = none)
    ∧ (assocFind (merge_default_bucket
          [⟨"Chair", "Chair", none, none, false⟩,
           ⟨"Chair_PROXY", "Chair", some "proxy", none, false⟩]) "default" = none) :=
  ⟨⟨⟨"Chair", "Chair", none, none, false⟩, by decide, rfl⟩,
   (purpose_default_merge
      [⟨"Chair", "Chair", none, none, false⟩,
       ⟨"Chair_PROXY", "Chair", some "proxy", none, false⟩]
      ⟨⟨"Chair", "Chair", none, none, false⟩, by decide, rfl⟩
      (by decide)).1.mpr (by decide)⟩

/-- Bases of variant-tagged children, with the variant names per base
(validate_variants, Clone_USD_StageAssembler.py lines 264-271). -/
def variantBases (children : List String) : List (String × List String) :=
  children.foldl
    (fun acc n =>
      let p := parse_name_suffixes n
      match p.2.2.1 with
      | some _ => assocAppend acc p.1 n
      | none => acc)
    []

/-- First child of the named variant member that is itself
variant-tagged with the same base (lines 276-280). -/
def findBadChild (tree : List (String × TreeNode)) (base varName : String) :
    Option String :=
  (childrenOf tree varName).find?
    (fun child =>
      let p := parse_name_suffixes child
      p.2.2.1.isSome && decide (p.1 = base))

/-- Embedding of validate_variants (lines 259-281): returns an error
message when a variant member has a child that is a variant of the
same base, none when the sibling list is valid. -/
def validate_variants (children : List String) (tree : List (String × TreeNode)) :
    Option String :=
  (variantBases children).findSome?
    (fun bv =>
      bv.2.findSome?
        (fun varName =>
          match findBadChild tree bv.1 varName with
          | some child =>
            some ("Invalid: Variant " ++ child ++ " cannot be under variant " ++ varName)
          | none => none))

/-- Properties read from a per-file document's default prim by
read_prim_custom_data: authored instanceable, kind, and the usePayload
custom-data key. -/
structure FileProps where
  instanceable : Option Bool := none
  kind : Option String := none
  usePayload : Bool := false
deriving DecidableEq, Repr

/-- Authored state of one prim in the output stage, as far as the
verified claims are concerned. -/
structure PrimData where
  instanceable : Bool := false
  kind : Option String := none
  purpose : Option String := none
  refs : List (Bool × String) := []
  variantSet : Option VariantSetState := none
deriving DecidableEq, Repr

/-- The output stage: prim specs in creation order keyed by path, plus
the created-prims registry of the assembler. -/
structure Stage where
  prims : List (List String × PrimData) := []
  created : List (String × List String) := []
deriving DecidableEq, Repr

def stageLookup (st : Stage) (p : List String) : Option PrimData :=
  assocFind st.prims p

/-- Model of DefinePrim: reuse an existing spec, else author a fresh
one at the end. -/
def definePrim (st : Stage) (p : List String) : Stage :=
  if (assocFind st.prims p).isSome then st
  else { st with prims := st.prims ++ [(p, {})] }

def updatePrim (st : Stage) (p : List String) (f : PrimData → PrimData) : Stage :=
  { st with prims := st.prims.map (fun e => if e.1 = p then (e.1, f e.2) else e) }

def recordCreated (st : Stage) (n : String) (p : List String) : Stage :=
  { st with created := (n, p) :: st.created }

/-- Embedding of apply_prim_properties (lines 214-239): kind is applied
unconditionally; authored instanceable true is applied only when the
prim has no children to add, and the returned flag says whether it was
applied. -/
def apply_prim_properties (st : Stage) (p : List String) (props : FileProps)
    (hasChildren : Bool) : Stage × Bool :=
  let st1 := match props.kind with
    | some k => updatePrim st p (fun d => { d with kind := some k })
    | none => st
  if props.instanceable = some true then
    if hasChildren then (st1, false)
    else (updatePrim st1 p (fun d => { d with instanceable := true }), true)
  else (st1, false)

/-- Assembly context: the hierarchy tree and the export directory
contents, the latter as a map from names to the properties read from
the matching file (a missing key models find_usd_file failing). -/
structure AsmCtx where
  tree : List (String × TreeNode)
  files : List (String × FileProps)
deriving DecidableEq, Repr

def toAItem (ctx : AsmCtx) (it : GItem) : AItem :=
  { name := it.name, variant := it.variant, is_payload := it.is_payload,
    hasFile := (assocFind ctx.files it.name).isSome }

/-- The per-node part of create_prim_recursive before children are
processed (lines 388-440): find the file, add the reference or payload
prim (or an organizational group prim when the file is missing), apply
kind and instanceable, apply the purpose suffix, record the created
prim.  Returns the stage, the new prim path, and the instanceable
flag. -/
def ownPrimStep (ctx : AsmCtx) (name : String) (parentPath : List String) (st : Stage) :
    Stage × List String × Bool :=
  let parsed := parse_name_suffixes name
  let hasChildren := !(childrenOf ctx.tree name).isEmpty
  match assocFind ctx.files name with
  | some props =>
    let usePayload := props.usePayload || parsed.2.2.2
    let primPath := parentPath ++ [name]
    let st1 := definePrim st primPath
    let st2 := updatePrim st1 primPath
      (fun d => { d with refs := d.refs ++ [(usePayload, name)] })
    let r := apply_prim_properties st2 primPath props hasChildren
    let st3 := match parsed.2.1 with
      | some pu => updatePrim r.1 primPath (fun d => { d with purpose := some pu })
      | none => r.1
    (recordCreated st3 name primPath, primPath, r.2)
  | none =>
    let primPath := parentPath ++ [make_valid_prim_name name]
    let st1 := definePrim st primPath
    (recordCreated st1 name primPath, primPath, false)

/-- One purpose bucket of the purpose branch (lines 497-580): a bucket
with variants gets a variant set on its purpose prim, with per-member
apply_prim_properties on that prim; a single-member bucket gets a plain
reference prim.  Neither recurses into children. -/
def processPurposeBucket (ctx : AsmCtx) (groupPath : List String) (st : Stage)
    (purposeName : String) (items : List GItem) : Stage :=
  let purposeVariants := items.filter (fun it => it.variant ≠ none)
  if purposeVariants.length > 1 ∨ (purposeVariants.length = 1 ∧ items.length > 1) then
    let purposePath := groupPath ++ [purposeName]
    let st1 := definePrim st purposePath
    let st2 :=
      if purposeName = "render" ∨ purposeName = "proxy" ∨ purposeName = "guide" then
        updatePrim st1 purposePath (fun d => { d with purpose := some purposeName })
      else st1
    let st3 := updatePrim st2 purposePath
      (fun d => { d with variantSet := some (buildAssemblerVariantSet (items.map (toAItem ctx))) })
    items.foldl
      (fun s it =>
        match assocFind ctx.files it.name with
        | none => s
        | some props =>
          recordCreated (apply_prim_properties s purposePath props false).1 it.name purposePath)
      st3
  else if items.length = 1 then
    match items with
    | [] => st
    | it :: _ =>
      match assocFind ctx.files it.name with
      | none => st
      | some props =>
        let usePayload := props.usePayload || it.is_payload
        let purposePath := groupPath ++ [purposeName]
        let st1 := definePrim st purposePath
        let st2 := updatePrim st1 purposePath
          (fun d => { d with refs := d.refs ++ [(usePayload, it.name)] })
        let st3 :=
          if purposeName = "render" ∨ purposeName = "proxy" ∨ purposeName = "guide" then
            updatePrim st2 purposePath (fun d => { d with purpose := some purposeName })
          else st2
        recordCreated (apply_prim_properties st3 purposePath props false).1 it.name purposePath
  else st

/-- One sibling group of create_prim_recursive (lines 455-628),
parametrised by the recursive continuation: a single plain member
recurses directly; with purposes the purpose buckets are processed;
with only variants the group prim gets a variant set, per-found-member
apply_prim_properties, and recursion into the variant members'
children under the group prim; otherwise each member recurses. -/
def processGroupStep (go : AsmCtx → String → List String → Stage → Stage)
    (ctx : AsmCtx) (primPath : List String) (st : Stage)
    (groupKey : String) (group : List GItem) : Stage :=
  let purposes := group.filterMap (fun it => it.purpose)
  let variantsL := group.filter (fun it => it.variant ≠ none)
  if group.length = 1 ∧ purposes = [] ∧ variantsL = [] then
    match group with
    | [] => st
    | it :: _ => go ctx it.name primPath st
  else
    let groupPrimPath := primPath ++ [make_valid_prim_name groupKey]
    if purposes ≠ [] then
      let st1 := recordCreated (definePrim st groupPrimPath) groupKey groupPrimPath
      (merge_default_bucket group).foldl
        (fun s b => processPurposeBucket ctx groupPrimPath s b.1 b.2) st1
    else if variantsL ≠ [] then
      let st1 := definePrim st groupPrimPath
      let st2 := updatePrim st1 groupPrimPath
        (fun d => { d with variantSet := some (buildAssemblerVariantSet (group.map (toAItem ctx))) })
      let st3 := group.foldl
        (fun s it =>
          match assocFind ctx.files it.name with
          | none => s
          | some props =>
            recordCreated (apply_prim_properties s groupPrimPath props false).1
              it.name groupPrimPath)
        st2
      group.foldl
        (fun s it =>
          (childrenOf ctx.tree it.name).foldl (fun s2 c => go ctx c groupPrimPath s2) s)
        st3
    else
      group.foldl (fun s it => go ctx it.name primPath s) st

/-- One unfolding of create_prim_recursive (lines 388-628): author the
node itself; unless it became instanceable, validate its children
(aborting all of the node's sibling groups on error) and process the
sibling groups. -/
def asmStep (go : AsmCtx → String → List String → Stage → Stage)
    (ctx : AsmCtx) (name : String) (parentPath : List String) (st : Stage) : Stage :=
  let r := ownPrimStep ctx name parentPath st
  if r.2.2 then r.1
  else if (assocFind ctx.tree name).isSome then
    match validate_variants (childrenOf ctx.tree name) ctx.tree with
    | some _ => r.1
    | none =>
      (get_sibling_groups (childrenOf ctx.tree name)).foldl
        (fun s g => processGroupStep go ctx r.2.1 s g.1 g.2) r.1
  else r.1

/-- Fuel-indexed embedding of create_prim_recursive; the fuel bounds
the recursion depth and is chosen larger than the hierarchy depth at
every use. -/
def create_prim_recursive : Nat → AsmCtx → String → List String → Stage → Stage
  | 0 => fun _ _ _ st => st
  | Nat.succ fuel => asmStep (create_prim_recursive fuel)

/-- Embedding of the hierarchy-driven part of auto_assemble_stage
(lines 633-642, without the configured default prim): build the tree
and recursively create each root under the stage root. -/
def auto_assemble_stage (fuel : Nat) (entries : List (String × Option String))
    (files : List (String × FileProps)) : Stage :=
  let tree := build_hierarchy_tree entries
  (get_root_nodes tree).foldl
    (fun st r => create_prim_recursive fuel { tree := tree, files := files } r [] st)
    {}

/-- C3: evaluation of the assembler at a failing input.  With siblings
Chair_VARIANT1 and Chair_VARIANT2 under P, where Chair_VARIANT1's file
requests instanceable and Chair_VARIANT1 has the hierarchy child Leg,
the variant branch applies instanceable to the group prim (its
apply_prim_properties call leaves has_children at the default false)
and then authors Leg beneath that instanceable prim — violating the
claimed invariant that an instanceable node never receives authored
children. -/
theorem instanceable_child_violation :
    ((stageLookup (auto_assemble_stage 6
          [("P", none), ("Chair_VARIANT1", some "P"), ("Chair_VARIANT2", some "P"),
           ("Leg", some "Chair_VARIANT1")]
          [("Chair_VARIANT1", { instanceable := some true }), ("Chair_VARIANT2", {})])
        ["P", "Chair"]).map PrimData.instanceable = some true)
    ∧ ((stageLookup (auto_assemble_stage 6
          [("P", none), ("Chair_VARIANT1", some "P"), ("Chair_VARIANT2", some "P"),
           ("Leg", some "Chair_VARIANT1")]
          [("Chair_VARIANT1", { instanceable := some true }), ("Chair_VARIANT2", {})])
        ["P", "Chair", "Leg"]).isSome = true) := by
  decide

/-- C6 counterexample: when the children of P contain the invalid
variant nesting (Chair_VARIANT3 under Chair_VARIANT1), the assembler
returns from P's children processing before any sibling group is
handled, so the unrelated sibling group Table is never created — the
claim that other sibling groups of the same parent continue to be
processed fails. -/
theorem variant_error_counterexample :
    ((validate_variants
        (childrenOf (build_hierarchy_tree
          [("P", none), ("Chair_VARIANT1", some "P"), ("Chair_VARIANT2", some "P"),
           ("Chair_VARIANT3", some "Chair_VARIANT1"), ("Table", some "P")]) "P")
        (build_hierarchy_tree
          [("P", none), ("Chair_VARIANT1", some "P"), ("Chair_VARIANT2", some "P"),
           ("Chair_VARIANT3", some "Chair_VARIANT1"), ("Table", some "P")])).isSome = true)
    ∧ ((stageLookup (auto_assemble_stage 6
          [("P", none), ("Chair_VARIANT1", some "P"), ("Chair_VARIANT2", some "P"),
           ("Chair_VARIANT3", some "Chair_VARIANT1"), ("Table", some "P")] [])
        ["P"]).isSome = true)
    ∧ (stageLookup (auto_assemble_stage 6
          [("P", none), ("Chair_VARIANT1", some "P"), ("Chair_VARIANT2", some "P"),
           ("Chair_VARIANT3", some "Chair_VARIANT1"), ("Table", some "P")] [])
        ["P", "Table"] = none) := by
  decide

/-- C6 (amended): when validate_variants reports illegal variant
nesting among a node's children, the assembler creates the node itself
and then aborts the processing of all of that node's sibling groups
(the recursion returns the per-node stage unchanged); nodes outside
that parent are unaffected because the enclosing iteration simply
continues with the returned stage. -/
theorem create_prim_recursive_variant_error (fuel : Nat) (ctx : AsmCtx) (name : String)
    (parentPath : List String) (st : Stage)
    (h : validate_variants (childrenOf ctx.tree name) ctx.tree ≠ none) :
    create_prim_recursive (fuel + 1) ctx name parentPath st
      = (ownPrimStep ctx name parentPath st).1 := by
  show asmStep (create_prim_recursive fuel) ctx name parentPath st
      = (ownPrimStep ctx name parentPath st).1
  simp only [asmStep]
  by_cases hinst : (ownPrimStep ctx name parentPath st).2.2 = true
  · rw [if_pos hinst]
  · rw [if_neg hinst]
    by_cases hkey : (assocFind ctx.tree name).isSome = true
    · rw [if_pos hkey]
      cases hv : validate_variants (childrenOf ctx.tree name) ctx.tree with
      | some e => rfl
      | none => exact absurd hv h
    · rw [if_neg hkey]

/-- C6 witness: the amended abort behaviour at the counterexample
input. -/
theorem create_prim_recursive_variant_error_witness :
    (validate_variants
        (childrenOf (build_hierarchy_tree
          [("P", none), ("Chair_VARIANT1", some "P"), ("Chair_VARIANT2", some "P"),
           ("Chair_VARIANT3", some "Chair_VARIANT1"), ("Table", some "P")]) "P")
        (build_hierarchy_tree
          [("P", none), ("Chair_VARIANT1", some "P"), ("Chair_VARIANT2", some "P"),
           ("Chair_VARIANT3", some "Chair_VARIANT1"), ("Table", some "P")]) ≠ none)
    ∧ create_prim_recursive (5 + 1)
        { tree := build_hierarchy_tree
            [("P", none), ("Chair_VARIANT1", some "P"), ("Chair_VARIANT2", some "P"),
             ("Chair_VARIANT3", some "Chair_VARIANT1"), ("Table", some "P")],
          files := [] } "P" [] {}
      = (ownPrimStep
          { tree := build_hierarchy_tree
              [("P", none), ("Chair_VARIANT1", some "P"), ("Chair_VARIANT2", some "P"),
               ("Chair_VARIANT3", some "Chair_VARIANT1"), ("Table", some "P")],
            files := [] } "P" [] {}).1 :=
  ⟨by decide,
   create_prim_recursive_variant_error 5
     { tree := build_hierarchy_tree
         [("P", none), ("Chair_VARIANT1", some "P"), ("Chair_VARIANT2", some "P"),
          ("Chair_VARIANT3", some "Chair_VARIANT1"), ("Table", some "P")],
       files := [] } "P" [] {} (by decide)⟩

/-- Observable effects of the root-wrapper stripping sequence, in
program order: the atomic batch move (with its outcome), the CopySpec
moves of the fallback, the default-prim assignment, the removal of the
root wrapper, and the reference-remapping passes. -/
inductive StripEv where
  | applyBatch (edits : List (String × String)) (ok : Bool)
  | copySpec (src dst : String)
  | setDefaultPrim (n : String)
  | removeWrapper (p : String)
  | remapPaths
deriving DecidableEq, Repr

/-- A direct child of the located wrapper prim, as seen in the layer:
its name and whether its specifier is a class specifier. -/
structure WrapperChild where
  name : String
  isClassSpecifier : Bool
deriving DecidableEq, Repr

/-- A child counts as concrete content when it is not a class
specifier and its name does not start with the class-name marker
(source line 259). -/
def isContentChild (c : WrapperChild) : Bool :=
  !c.isClassSpecifier && !(decide (c.name.data.take 7 = "_class_".data))

/-- The reserved material-scope names (source line 249). -/
def isMtlScopeName (n : String) : Bool :=
  n = "mtl" || n = "Looks" || n = "Materials"

/-- Partition of the wrapper children into (main, content, material)
name lists (source lines 250-261). -/
def partitionWrapperChildren (children : List WrapperChild) :
    List String × List String × List String :=
  children.foldl
    (fun acc c =>
      if isMtlScopeName c.name then (acc.1, acc.2.1, acc.2.2 ++ [c.name])
      else if isContentChild c then (acc.1 ++ [c.name], acc.2.1 ++ [c.name], acc.2.2)
      else (acc.1 ++ [c.name], acc.2.1, acc.2.2))
    ([], [], [])

/-- The default-prim name chosen by the strip: the first content
child, or the first main child when no concrete content exists (source
line 266). -/
def stripDefaultName (children : List WrapperChild) : String :=
  match (partitionWrapperChildren children).2.1 with
  | c :: _ => c
  | [] =>
    match (partitionWrapperChildren children).1 with
    | m :: _ => m
    | [] => ""

/-- Materials are nested under the single content child exactly when
there is one content child and at least one material child (source
line 267). -/
def stripNestMtl (children : List WrapperChild) : Bool :=
  decide ((partitionWrapperChildren children).2.1.length = 1)
    && decide ((partitionWrapperChildren children).2.2 ≠ [])

/-- The batch namespace edit built for the strip (source lines
276-295). -/
def buildStripEdits (wrapperPath defaultName : String) (mains mtls : List String)
    (nestMtl : Bool) : List (String × String) :=
  mains.map (fun n => (wrapperPath ++ "/" ++ n, "/" ++ n))
    ++ (if nestMtl then
          mtls.map (fun n => (wrapperPath ++ "/" ++ n, "/" ++ defaultName ++ "/" ++ n))
        else mtls.map (fun n => (wrapperPath ++ "/" ++ n, "/" ++ n)))

/-- Event-trace embedding of the main branch of _strip_root_wrapper
(Clone_USD_PropertiesChaser.py, lines 236-332, SkelRoot mode excluded —
that branch never removes the root wrapper).  When the batch apply
fails, the fallback (lines 462-494) copies every child, removes the
root wrapper and remaps, and only afterwards does the main flow commit
the default prim; the wrapper-removal step of the main flow is skipped
there because the wrapper spec is already gone. -/
def strip_root_wrapper (wrapperPath : String) (children : List WrapperChild)
    (batchOk : Bool) : List StripEv :=
  if children = [] then []
  else if (partitionWrapperChildren children).1 = [] then []
  else
    let edits := buildStripEdits wrapperPath (stripDefaultName children)
      (partitionWrapperChildren children).1 (partitionWrapperChildren children).2.2
      (stripNestMtl children)
    (if batchOk then [StripEv.applyBatch edits true]
     else [StripEv.applyBatch edits false]
       ++ edits.map (fun e => StripEv.copySpec e.1 e.2)
       ++ [StripEv.removeWrapper "/root", StripEv.remapPaths])
    ++ [StripEv.setDefaultPrim (stripDefaultName children)]
    ++ (if batchOk then [StripEv.removeWrapper "/root"] else [])
    ++ [StripEv.remapPaths]

def isRemoveEv : StripEv → Bool
  | StripEv.removeWrapper _ => true
  | _ => false

def isSetDefaultEv : StripEv → Bool
  | StripEv.setDefaultPrim _ => true
  | _ => false

/-- C4 counterexample: when the atomic batch edit fails and the
CopySpec fallback runs, the root wrapper is removed (inside the
fallback) strictly before the default prim is committed, so an
intermediate state exists with neither wrapper nor default entry; the
claimed ordering fails on this execution. -/
theorem strip_order_counterexample :
    (strip_root_wrapper "/root" [⟨"Hero", false⟩] false).findIdx isRemoveEv = 2
    ∧ (strip_root_wrapper "/root" [⟨"Hero", false⟩] false).findIdx isSetDefaultEv = 4
    ∧ ((strip_root_wrapper "/root" [⟨"Hero", false⟩] false).any isRemoveEv = true)
    ∧ ((strip_root_wrapper "/root" [⟨"Hero", false⟩] false).any isSetDefaultEv = true)
    ∧ (2 : Nat) < 4 := by
  decide

theorem strip_root_wrapper_batch_ok (wrapperPath : String) (children : List WrapperChild)
    (h0 : ¬ children = []) (h1 : ¬ (partitionWrapperChildren children).1 = []) :
    strip_root_wrapper wrapperPath children true
      = [StripEv.applyBatch
           (buildStripEdits wrapperPath (stripDefaultName children)
             (partitionWrapperChildren children).1
             (partitionWrapperChildren children).2.2 (stripNestMtl children)) true,
         StripEv.setDefaultPrim (stripDefaultName children),
         StripEv.removeWrapper "/root",
         StripEv.remapPaths] := by
  simp only [strip_root_wrapper]
  rw [if_neg h0, if_neg h1]
  rfl

/-- C4 (amended): on the primary path, where the atomic batch edit
succeeds, every wrapper-removal event of the stripping sequence is
preceded by a default-prim commit; the claimed ordering holds there
and fails only on the CopySpec fallback (see the counterexample). -/
theorem strip_default_before_remove_on_batch (wrapperPath : String)
    (children : List WrapperChild) (i : Nat) (e : StripEv)
    (hi : (strip_root_wrapper wrapperPath children true)[i]? = some e)
    (hrem : isRemoveEv e = true) :
    ∃ j, j < i ∧ ∃ n,
      (strip_root_wrapper wrapperPath children true)[j]?
        = some (StripEv.setDefaultPrim n) := by
  by_cases h0 : children = []
  · rw [h0] at hi
    simp [strip_root_wrapper] at hi
  · by_cases h1 : (partitionWrapperChildren children).1 = []
    · have hz : strip_root_wrapper wrapperPath children true = [] := by
        simp only [strip_root_wrapper]
        rw [if_neg h0, if_pos h1]
      rw [hz] at hi
      simp at hi
    · rw [strip_root_wrapper_batch_ok wrapperPath children h0 h1] at hi ⊢
      rcases i with _ | _ | _ | _ | i
      · simp only [List.getElem?_cons_zero, Option.some.injEq] at hi
        rw [← hi] at hrem
        exact Bool.noConfusion hrem
      · simp only [List.getElem?_cons_succ, List.getElem?_cons_zero,
          Option.some.injEq] at hi
        rw [← hi] at hrem
        exact Bool.noConfusion hrem
      · refine ⟨1, by omega, stripDefaultName children, ?_⟩
        rfl
      · simp only [List.getElem?_cons_succ, List.getElem?_cons_zero,
          Option.some.injEq] at hi
        rw [← hi] at hrem
        exact Bool.noConfusion hrem
      · simp at hi

/-- C4 witness: the primary-path ordering at a concrete input. -/
theorem strip_default_before_remove_witness :
    ((strip_root_wrapper "/root" [⟨"Hero", false⟩] true)[2]?
        = some (StripEv.removeWrapper "/root"))
    ∧ isRemoveEv (StripEv.removeWrapper "/root") = true
    ∧ ∃ j, j < 2 ∧ ∃ n,
        (strip_root_wrapper "/root" [⟨"Hero", false⟩] true)[j]?
          = some (StripEv.setDefaultPrim n) :=
  ⟨by decide, by decide,
   strip_default_before_remove_on_batch "/root" [⟨"Hero", false⟩] 2
     (StripEv.removeWrapper "/root") (by decide) (by decide)⟩

end PUSD
